import Mathlib

/-!
Verification of the sparsemat sparse-matrix library against its specification.

The development shallowly embeds the library's three storage engines and the
algorithms built on them:

* `RowIndexList` (rowindexlist.rs): the sentinel-terminated linked row index.
  The index type of the source is a fixed-width unsigned integer whose maximum
  value `UNSET` serves as the "no entry / end of chain" sentinel; the model
  idealizes the index type as unbounded `Nat` and renders the sentinel as
  `none` in `Option Nat`.  The capacity guard of `push` (which panics when the
  entry count would reach the sentinel) can consequently never fire in the
  model and is recorded by a comment at its place in the translation.
* `SparseMatIndexList` (sparsemat_indexlist.rs): the incremental linked format.
* `SparseMatCRS` (sparsemat_crs.rs): compressed row storage.
* `SparseMatRowVec` (sparsemat_rowvec.rs): one array pair per row.
* dense vectors (densevec.rs / vector.rs) and the conjugate-gradient solver
  (linearsolver.rs), with values embedded as exact rationals `ℚ`.

Rust panics (out-of-bounds indexing, explicit panic! calls, debug-mode
arithmetic underflow) are modelled by `Except Err`; values are `ℚ`
(instantiating the generic value type of the source at an exact field).
-/

/-- Failure conditions of the library, one constructor per distinct panic
source in the code: explicit panic messages and implicit indexing or
arithmetic panics. -/
inductive Err where
  /-- panic "Dimension mismatch" -/
  | dimensionMismatch
  /-- panic "Column iterator not available - use assemble_column_info()" -/
  | notAvailable
  /-- implicit panic: slice or Vec indexing out of bounds -/
  | indexOutOfBounds
  /-- implicit panic: usize subtraction overflow (debug build) -/
  | arithmeticUnderflow
  /-- panic "Invalid row {} - Max row is {}" -/
  | invalidRow
  /-- panic "Matrix is not symmetric" -/
  | notSymmetric
  /-- panic "Matrix and vector size mismatch" -/
  | sizeMismatch
  deriving DecidableEq

/-- Rust's `Vec::resize(n, v)`: truncates when `n` is smaller than the current
length, otherwise pads with copies of `v`. -/
def vecResize {α : Type} (l : List α) (n : Nat) (v : α) : List α :=
  if n ≤ l.length then l.take n else l ++ List.replicate (n - l.length) v

/-- One step of following the linked-index chain: the slot stored at position
`pos` of `index_list` (`none` is the `UNSET` sentinel; reading out of bounds
also yields `none`, which under the well-formedness invariant never happens). -/
def chainStep (il : List (Option Nat)) (pos : Nat) : Option Nat :=
  il.getD pos none

/-- The `while self.index_list[iter] != UNSET` walk of `RowIndexList::push`,
finding the last slot of a chain.  The loop of the source terminates because
chains are acyclic; the model makes this explicit with fuel, which the callers
instantiate with the list length (an upper bound for any well-formed chain). -/
def chainTail (il : List (Option Nat)) : Nat → Nat → Nat
  | 0, cur => cur
  | fuel + 1, cur =>
    match chainStep il cur with
    | none => cur
    | some nxt => chainTail il fuel nxt

/-- The slots visited by the row iterator of `RowIndexList` starting from
`start`, i.e. the chain `start, index_list[start], ...` up to the sentinel.
Fuel bounds the walk exactly as in `chainTail`. -/
def chainList (il : List (Option Nat)) : Nat → Option Nat → List Nat
  | _, none => []
  | 0, some _ => []
  | fuel + 1, some pos => pos :: chainList il fuel (chainStep il pos)

/-- rowindexlist.rs `RowIndexList<I>`: `row_start[row]` is the first slot of
the row's chain and `index_list[slot]` the next slot, both `UNSET`-terminated
(`UNSET` rendered as `none`). -/
structure RowIndexList where
  row_start : List (Option Nat)
  index_list : List (Option Nat)
  deriving DecidableEq

/-- `RowIndexList::new`. -/
def RowIndexList.new : RowIndexList := ⟨[], []⟩

/-- `RowIndexList::with_capacity` (capacity is an allocation hint only). -/
def RowIndexList.with_capacity (_cap : Nat) : RowIndexList := ⟨[], []⟩

/-- `RowIndexList::n_entries`. -/
def RowIndexList.n_entries (l : RowIndexList) : Nat := l.index_list.length

/-- `RowIndexList::n_rows`. -/
def RowIndexList.n_rows (l : RowIndexList) : Nat := l.row_start.length

/-- rowindexlist.rs lines 61-83, `RowIndexList::push(row)`: grow the row table
if needed, append a fresh sentinel-linked slot, and hook it to the row either
as the chain head or at the tail found by walking the chain.  The source's
capacity guard (`index == UNSET` panics) compares against the index type's
maximum value and never fires in the unbounded-index model. -/
def RowIndexList.push (l : RowIndexList) (row : Nat) : RowIndexList × Nat :=
  let rs := if l.row_start.length ≤ row
    then vecResize l.row_start (row + 1) none else l.row_start
  let index := l.index_list.length
  let il := l.index_list ++ [none]
  match rs.getD row none with
  | none => (⟨rs.set row (some index), il⟩, index)
  | some head =>
    let tail := chainTail il il.length head
    (⟨rs, il.set tail (some index)⟩, index)

/-- rowindexlist.rs lines 85-95 plus the `IterRow` cursor: the slot sequence
of one row, starting from `row_start[row]` when the row exists and from the
sentinel otherwise. -/
def RowIndexList.iterRow (l : RowIndexList) (row : Nat) : List Nat :=
  let start := if row < l.row_start.length then l.row_start.getD row none else none
  chainList l.index_list l.index_list.length start

/-- rowindexlist.rs lines 97-104 plus the `Iter` cursor.  Constructing the
iterator reads `row_start[0]`, which panics (out of bounds) when the list has
no rows; otherwise the cursor advances the row pointer across empty rows and
yields, as the file's own documentation and spec section 4.2 state, exactly the
concatenation of `iterate_row` over every row in order. -/
def RowIndexList.iterAll (l : RowIndexList) : Except Err (List (Nat × Nat)) :=
  match l.row_start with
  | [] => .error .indexOutOfBounds
  | _ => .ok (((List.range l.row_start.length).map
      (fun i => (l.iterRow i).map (fun s => (i, s)))).flatten)

/-- sparsemat_indexlist.rs `SparseMatIndexList<T, I>` at `T = ℚ`, `I = Nat`:
parallel `columns`/`values` arrays indexed by the slots of `indexlist`;
`track_cols` selects the optional column-tracking mirror (`rows`,
`indexlist_col`). -/
structure SparseMatIndexList where
  n_cols : Nat
  columns : List Nat
  values : List ℚ
  indexlist : RowIndexList
  track_cols : Bool
  rows : List Nat
  indexlist_col : RowIndexList
  deriving DecidableEq

/-- sparsemat_indexlist.rs lines 93-103, `SparseMatIndexList::new`. -/
def SparseMatIndexList.new : SparseMatIndexList :=
  ⟨0, [], [], RowIndexList.new, false, [], RowIndexList.new⟩

/-- `SparseMatIndexList::with_capacity` (capacity is an allocation hint). -/
def SparseMatIndexList.with_capacity (_cap : Nat) : SparseMatIndexList :=
  ⟨0, [], [], RowIndexList.new, false, [], RowIndexList.new⟩

/-- `SparseMatIndexList::n_rows` = `indexlist.n_rows()`. -/
def SparseMatIndexList.n_rows (m : SparseMatIndexList) : Nat := m.indexlist.n_rows

/-- `SparseMatIndexList::n_non_zero_entries` = `columns.len()`. -/
def SparseMatIndexList.n_non_zero_entries (m : SparseMatIndexList) : Nat :=
  m.columns.length

/-- sparsemat_indexlist.rs lines 27-40, `find_index(i, j)`: scan the slots of
row `i`'s chain for the first one whose column is `j`; `UNSET` (here `none`)
when the entry does not exist.  An out-of-bounds slot read would panic in the
source; the model's default `j + 1` never equals `j`, so such a slot never
matches (the well-formedness invariant keeps all chain slots in bounds). -/
def SparseMatIndexList.find_index (m : SparseMatIndexList) (i j : Nat) : Option Nat :=
  if i < m.n_rows then
    (m.indexlist.iterRow i).find? (fun idx => m.columns.getD idx (j + 1) = j)
  else none

/-- sparsemat_indexlist.rs lines 43-55, `push(i, j, val)`: widen `n_cols`, add
a slot for row `i` to the index list, append the column and value, and mirror
into the column-tracking structures when enabled. -/
def SparseMatIndexList.push (m : SparseMatIndexList) (i j : Nat) (val : ℚ) :
    SparseMatIndexList × Nat :=
  let m1 := if m.n_cols ≤ j then { m with n_cols := j + 1 } else m
  let pr := m1.indexlist.push i
  let m2 := { m1 with indexlist := pr.1,
                      columns := m1.columns ++ [j],
                      values := m1.values ++ [val] }
  let m3 := if m2.track_cols then
      { m2 with rows := m2.rows ++ [i],
                indexlist_col := (m2.indexlist_col.push j).1 }
    else m2
  (m3, pr.2)

/-- sparsemat_indexlist.rs lines 138-144, `get_mut(i, j)` as state plus the
offset of the returned mutable reference into `values`: a missing entry is
created with value zero. -/
def SparseMatIndexList.getMutIdx (m : SparseMatIndexList) (i j : Nat) :
    SparseMatIndexList × Nat :=
  match m.find_index i j with
  | some idx => (m, idx)
  | none => m.push i j 0

/-- sparsemat_indexlist.rs lines 129-136, `get(i, j)`: the stored value, or
zero when the entry does not exist. -/
def SparseMatIndexList.get (m : SparseMatIndexList) (i j : Nat) : ℚ :=
  match m.find_index i j with
  | some idx => m.values.getD idx 0
  | none => 0

/-- sparsemat.rs `set(i, j, val)` default method: write through `get_mut`. -/
def SparseMatIndexList.set (m : SparseMatIndexList) (i j : Nat) (v : ℚ) :
    SparseMatIndexList :=
  let mi := m.getMutIdx i j
  { mi.1 with values := mi.1.values.set mi.2 v }

/-- sparsemat.rs `add_to(i, j, val)` default method: accumulate through
`get_mut`. -/
def SparseMatIndexList.add_to (m : SparseMatIndexList) (i j : Nat) (v : ℚ) :
    SparseMatIndexList :=
  let mi := m.getMutIdx i j
  { mi.1 with values := mi.1.values.set mi.2 (mi.1.values.getD mi.2 0 + v) }

/-- sparsemat_indexlist.rs lines 146-150, `scale(rhs)`. -/
def SparseMatIndexList.scale (m : SparseMatIndexList) (c : ℚ) : SparseMatIndexList :=
  { m with values := m.values.map (fun x => x * c) }

/-- sparsemat_indexlist.rs lines 86-91 plus the `IterRow` cursor: the
`(column, value)` pairs of row `i` in chain (insertion) order. -/
def SparseMatIndexList.iter_row (m : SparseMatIndexList) (row : Nat) :
    List (Nat × ℚ) :=
  (m.indexlist.iterRow row).map (fun idx => (m.columns.getD idx 0, m.values.getD idx 0))

/-- sparsemat_indexlist.rs lines 79-84 plus the `Iter` cursor: the whole-matrix
iterator, delegating to `RowIndexList::iter` (which panics on a matrix with no
rows) and resolving each slot to its column and value. -/
def SparseMatIndexList.iterAll (m : SparseMatIndexList) :
    Except Err (List (Nat × Nat × ℚ)) :=
  (m.indexlist.iterAll).map
    (fun l => l.map (fun rs => (rs.1, m.columns.getD rs.2 0, m.values.getD rs.2 0)))

/-- The entries exposed by iterating every row in order: the reference point
for the at-most-one-entry-per-key contract. -/
def SparseMatIndexList.rowEntries (m : SparseMatIndexList) : List (Nat × Nat × ℚ) :=
  ((List.range m.n_rows).map
    (fun i => (m.iter_row i).map (fun cv => (i, cv.1, cv.2)))).flatten

/-- A cell-level mutating operation of the public interface; the composite
default algorithms (`add`, `sub`, `eye`, ...) are sequences of these. -/
inductive MatOp where
  | set (i j : Nat) (v : ℚ)
  | addTo (i j : Nat) (v : ℚ)
  | getMut (i j : Nat)
  | scale (c : ℚ)
  deriving DecidableEq

/-- One public operation applied to an index-list matrix. -/
def applyOpIL (m : SparseMatIndexList) : MatOp → SparseMatIndexList
  | .set i j v => m.set i j v
  | .addTo i j v => m.add_to i j v
  | .getMut i j => (m.getMutIdx i j).1
  | .scale c => m.scale c

/-- A sequence of public operations applied to a fresh index-list matrix. -/
def applyOpsIL (ops : List MatOp) : SparseMatIndexList :=
  ops.foldl applyOpIL SparseMatIndexList.new

/-- sparsemat_crs.rs `SparseMatCRS<T, I>` at `T = ℚ`, `I = Nat`: compressed row
storage with the optional column-view arrays `rows`/`offset_cols`. -/
structure SparseMatCRS where
  n_rows : Nat
  n_cols : Nat
  values : List ℚ
  columns : List Nat
  offset_rows : List Nat
  rows : List Nat
  offset_cols : List Nat
  deriving DecidableEq

/-- sparsemat_crs.rs lines 132-142, `SparseMatCRS::with_capacity` (capacity is
an allocation hint only). -/
def SparseMatCRS.with_capacity (_cap : Nat) : SparseMatCRS :=
  ⟨0, 0, [], [], [], [], []⟩

/-- sparsematrix.rs `new()` default method: `with_capacity(0)`. -/
def SparseMatCRS.new : SparseMatCRS := SparseMatCRS.with_capacity 0

/-- `SparseMatCRS::n_non_zero_entries` = `columns.len()` (lines 152-154). -/
def SparseMatCRS.n_non_zero_entries (m : SparseMatCRS) : Nat := m.columns.length

/-- sparsemat_crs.rs lines 64-77, `find_index(i, j)`: linear scan of row `i`'s
slice of `columns`; `UNSET` (here `none`) when the entry does not exist.  The
default `j + 1` of an out-of-bounds read never equals `j`, so such a read
never matches (under well-formedness all scanned offsets are in bounds). -/
def SparseMatCRS.find_index (m : SparseMatCRS) (i j : Nat) : Option Nat :=
  if i < m.n_rows then
    (List.range' (m.offset_rows.getD i 0)
        (m.offset_rows.getD (i + 1) 0 - m.offset_rows.getD i 0)).find?
      (fun idx => m.columns.getD idx (j + 1) = j)
  else none

/-- sparsemat_crs.rs lines 81-102, `push(i, j, val)`: widen `n_cols`, size the
offset table (note: when `offset_rows` was empty the source does NOT update
`n_rows`, unlike the second branch), then `Vec::insert` the new column and
value at offset `offset_rows[i]` — the beginning of row `i` — and shift all
subsequent row offsets by one.  The capacity guard
(`offset_rows[i] == UNSET` panics) compares against the index type's maximum
value and never fires in the unbounded-index model. -/
def SparseMatCRS.push (m : SparseMatCRS) (i j : Nat) (val : ℚ) :
    SparseMatCRS × Nat :=
  let m1 := if m.n_cols ≤ j then { m with n_cols := j + 1 } else m
  let m2 :=
    if m1.offset_rows.length = 0 then
      { m1 with offset_rows := vecResize m1.offset_rows (i + 2) 0 }
    else if m1.n_rows ≤ i then
      let offLast := m1.offset_rows.getD (m1.offset_rows.length - 1) 0
      { m1 with offset_rows := vecResize m1.offset_rows (i + 2) offLast,
                n_rows := i + 1 }
    else m1
  let index := m2.offset_rows.getD i 0
  ({ m2 with columns := m2.columns.insertIdx index j,
             values := m2.values.insertIdx index val,
             offset_rows := m2.offset_rows.mapIdx
               (fun k v => if i + 1 ≤ k then v + 1 else v) }, index)

/-- sparsemat_crs.rs lines 156-163, `get(i, j)`. -/
def SparseMatCRS.get (m : SparseMatCRS) (i j : Nat) : ℚ :=
  match m.find_index i j with
  | some idx => m.values.getD idx 0
  | none => 0

/-- sparsemat_crs.rs lines 165-171, `get_mut(i, j)` as state plus the offset of
the returned mutable reference into `values`. -/
def SparseMatCRS.getMutIdx (m : SparseMatCRS) (i j : Nat) : SparseMatCRS × Nat :=
  match m.find_index i j with
  | some idx => (m, idx)
  | none => m.push i j 0

/-- sparsematrix.rs lines 153-156, `set(i, j, val)` default method. -/
def SparseMatCRS.set (m : SparseMatCRS) (i j : Nat) (v : ℚ) : SparseMatCRS :=
  let mi := m.getMutIdx i j
  { mi.1 with values := mi.1.values.set mi.2 v }

/-- sparsematrix.rs lines 158-161, `add_to(i, j, val)` default method. -/
def SparseMatCRS.add_to (m : SparseMatCRS) (i j : Nat) (v : ℚ) : SparseMatCRS :=
  let mi := m.getMutIdx i j
  { mi.1 with values := mi.1.values.set mi.2 (mi.1.values.getD mi.2 0 + v) }

/-- sparsemat_crs.rs lines 173-177, `scale(rhs)`. -/
def SparseMatCRS.scale (m : SparseMatCRS) (c : ℚ) : SparseMatCRS :=
  { m with values := m.values.map (fun x => x * c) }

/-- sparsemat_crs.rs lines 122-130, `iter_row(row)`: the zipped slice
`columns[start..end]` / `values[start..end]` for an existing row and the empty
slice otherwise.  Slicing panics on an invalid range in the source; the model's
`drop`/`take` clamp, which coincides under well-formedness. -/
def SparseMatCRS.iter_row (m : SparseMatCRS) (row : Nat) : List (Nat × ℚ) :=
  if row < m.n_rows then
    let start := m.offset_rows.getD row 0
    let len := m.offset_rows.getD (row + 1) 0 - start
    List.zip ((m.columns.drop start).take len) ((m.values.drop start).take len)
  else []

/-- sparsemat_crs.rs lines 114-120 and 230-248, the whole-matrix cursor, fully
collected.  The first `next()` reads `offset_rows[self.row + 1]`, which panics
(out of bounds) when `offset_rows` has at most one element — in particular on a
fresh matrix.  With offsets present but `n_rows() == 0`, exhausting the cursor
evaluates `n_rows() - 1`, a usize underflow (debug panic; a release build wraps
and then indexes `offset_rows` out of bounds), so collecting every entry fails
as well.  Otherwise the cursor walks `pos` over the flat arrays while advancing
`row` past exhausted rows, yielding the concatenation of the row slices in row
order. -/
def SparseMatCRS.iterAll (m : SparseMatCRS) : Except Err (List (Nat × Nat × ℚ)) :=
  if m.offset_rows.length ≤ 1 then .error .indexOutOfBounds
  else if m.n_rows = 0 then .error .arithmeticUnderflow
  else .ok (((List.range m.n_rows).map
      (fun i => (m.iter_row i).map (fun cv => (i, cv.1, cv.2)))).flatten)

/-- sparsematrix.rs lines 104-114, the default `transpose()`: re-insert every
entry of every row with row and column swapped into a fresh matrix. -/
def SparseMatCRS.transpose (m : SparseMatCRS) : SparseMatCRS :=
  (List.range m.n_rows).foldl
    (fun ret i => (m.iter_row i).foldl (fun ret cv => ret.set cv.1 i cv.2) ret)
    (SparseMatCRS.with_capacity m.n_non_zero_entries)

/-- sparsemat_crs.rs lines 200-207, `assemble_column_info()`: the body is a
loop over all entries whose interior is only the comment `//TODO` — it computes
nothing and mutates nothing, so the method is the identity. -/
def SparseMatCRS.assemble_column_info (m : SparseMatCRS) : SparseMatCRS := m

/-- sparsemat_crs.rs lines 209-211, `has_iter_col()`. -/
def SparseMatCRS.has_iter_col (m : SparseMatCRS) : Bool := m.rows.length > 0

/-- sparsemat_crs.rs lines 213-221, `iter_col(col)`: panics with the
"not available" message when the column info is inconsistent with the entries,
then slices `rows`/`values` by `offset_cols` (indexing `offset_cols` out of
bounds is its own panic). -/
def SparseMatCRS.iter_col (m : SparseMatCRS) (col : Nat) : Except Err (List (Nat × ℚ)) :=
  if m.rows.length ≠ m.columns.length then .error .notAvailable
  else
    match m.offset_cols.get? col, m.offset_cols.get? (col + 1) with
    | some start, some stop =>
      .ok (List.zip ((m.rows.drop start).take (stop - start))
        ((m.values.drop start).take (stop - start)))
    | _, _ => .error .indexOutOfBounds

/-- One public operation applied to a CRS matrix. -/
def applyOpCRS (m : SparseMatCRS) : MatOp → SparseMatCRS
  | .set i j v => m.set i j v
  | .addTo i j v => m.add_to i j v
  | .getMut i j => (m.getMutIdx i j).1
  | .scale c => m.scale c

/-- A sequence of public operations applied to a fresh CRS matrix. -/
def applyOpsCRS (ops : List MatOp) : SparseMatCRS :=
  ops.foldl applyOpCRS SparseMatCRS.new

/-- Modelled from the spec: `has_iter_col()` for the index-list engine.  The
method is required by `SparseMatCRS::from_sparsemat_index` but its
implementation is absent from the staged sources (the file implements the
older `SparseMat` trait without the `ColumnIter` extension); spec section 4.3
says column iteration is available only once column info has been assembled,
which for this engine means the parallel `rows` mirror is populated — the same
test the CRS engine uses for this trait method. -/
def SparseMatIndexList.has_iter_col (m : SparseMatIndexList) : Bool :=
  m.rows.length > 0

/-- Modelled from the spec: `iter_col(col)` for the index-list engine (absent
from the staged sources, see `SparseMatIndexList.has_iter_col`).  Spec section
4.5: the column view records each entry's owning row in a `rows` array indexed
by a column-keyed linked index, so iterating a column walks the
`indexlist_col` chain and resolves each slot to its row and value. -/
def SparseMatIndexList.iter_col (m : SparseMatIndexList) (col : Nat) :
    List (Nat × ℚ) :=
  (m.indexlist_col.iterRow col).map
    (fun idx => (m.rows.getD idx 0, m.values.getD idx 0))

/-- sparsemat_crs.rs lines 23-60, `from_sparsemat_index(rhs)`: one pass over
the rows of the incremental matrix in increasing order, pushing the running
length of `columns` as each row's offset and appending the row's columns and
values in chain order; the optional column view is copied only when the source
has one; finally the total length is pushed as the terminating offset.  A
source without entries converts to `new()`. -/
def SparseMatCRS.from_sparsemat_index (rhs : SparseMatIndexList) : SparseMatCRS :=
  if 0 < rhs.n_non_zero_entries then
    let vco :=
      (List.range rhs.n_rows).foldl
        (fun (acc : List ℚ × List Nat × List Nat) i =>
          (acc.1 ++ (rhs.iter_row i).map Prod.snd,
           acc.2.1 ++ (rhs.iter_row i).map Prod.fst,
           acc.2.2 ++ [acc.2.1.length]))
        ([], [], [])
    let rowsOff :=
      if rhs.has_iter_col then
        (List.range rhs.n_cols).foldl
          (fun (acc : List Nat × List Nat) j =>
            (acc.1 ++ (rhs.iter_col j).map Prod.fst, acc.2 ++ [acc.1.length]))
          ([], [])
      else ([], [])
    let offset_rows := vco.2.2 ++ [vco.2.1.length]
    { n_rows := offset_rows.length - 1,
      n_cols := rhs.n_cols,
      values := vco.1,
      columns := vco.2.1,
      offset_rows := offset_rows,
      rows := rowsOff.1,
      offset_cols := rowsOff.2 }
  else SparseMatCRS.new

/-- sparsemat_rowvec.rs `SparseMatRowVec<T, I>` at `T = ℚ`, `I = Nat`: one
column array and one value array per row, plus a running entry counter. -/
structure SparseMatRowVec where
  n_cols : Nat
  nnz : Nat
  columns : List (List Nat)
  values : List (List ℚ)
  deriving DecidableEq

/-- sparsemat_rowvec.rs lines 75-82, `with_capacity` (allocation hint only). -/
def SparseMatRowVec.with_capacity (_cap : Nat) : SparseMatRowVec :=
  ⟨0, 0, [], []⟩

/-- sparsematrix.rs `new()` default method: `with_capacity(0)`. -/
def SparseMatRowVec.new : SparseMatRowVec := SparseMatRowVec.with_capacity 0

/-- `SparseMatRowVec::n_rows` = `columns.len()`. -/
def SparseMatRowVec.n_rows (m : SparseMatRowVec) : Nat := m.columns.length

/-- `SparseMatRowVec::n_non_zero_entries` = the `nnz` counter (lines 92-94). -/
def SparseMatRowVec.n_non_zero_entries (m : SparseMatRowVec) : Nat := m.nnz

/-- sparsemat_rowvec.rs lines 20-32, `find_index(i, j)`: position of column
`j` within row `i`'s column array, or `UNSET` (here `none`). -/
def SparseMatRowVec.find_index (m : SparseMatRowVec) (i j : Nat) : Option Nat :=
  if i < m.n_rows then (m.columns.getD i []).findIdx? (fun c => c = j) else none

/-- sparsemat_rowvec.rs lines 34-47, `push(i, j, val)`: grow the row tables if
needed, widen `n_cols`, append the entry at the end of row `i` and bump the
counter; returns the entry's position within the row. -/
def SparseMatRowVec.push (m : SparseMatRowVec) (i j : Nat) (val : ℚ) :
    SparseMatRowVec × Nat :=
  let m1 := if m.n_rows ≤ i then
      { m with columns := vecResize m.columns (i + 1) [],
               values := vecResize m.values (i + 1) [] }
    else m
  let m2 := if m1.n_cols ≤ j then { m1 with n_cols := j + 1 } else m1
  let ret := (m2.columns.getD i []).length
  ({ m2 with columns := m2.columns.set i ((m2.columns.getD i []) ++ [j]),
             values := m2.values.set i ((m2.values.getD i []) ++ [val]),
             nnz := m2.nnz + 1 }, ret)

/-- sparsemat_rowvec.rs lines 96-103, `get(i, j)`. -/
def SparseMatRowVec.get (m : SparseMatRowVec) (i j : Nat) : ℚ :=
  match m.find_index i j with
  | some idx => (m.values.getD i []).getD idx 0
  | none => 0

/-- sparsemat_rowvec.rs lines 105-111, `get_mut(i, j)` as state plus the
position of the returned mutable reference within row `i`. -/
def SparseMatRowVec.getMutIdx (m : SparseMatRowVec) (i j : Nat) :
    SparseMatRowVec × Nat :=
  match m.find_index i j with
  | some idx => (m, idx)
  | none => m.push i j 0

/-- sparsematrix.rs lines 153-156, `set(i, j, val)` default method. -/
def SparseMatRowVec.set (m : SparseMatRowVec) (i j : Nat) (v : ℚ) :
    SparseMatRowVec :=
  let mi := m.getMutIdx i j
  { mi.1 with values := mi.1.values.set i ((mi.1.values.getD i []).set mi.2 v) }

/-- sparsematrix.rs lines 158-161, `add_to(i, j, val)` default method. -/
def SparseMatRowVec.add_to (m : SparseMatRowVec) (i j : Nat) (v : ℚ) :
    SparseMatRowVec :=
  let mi := m.getMutIdx i j
  let row := mi.1.values.getD i []
  { mi.1 with values := mi.1.values.set i (row.set mi.2 ((row.getD mi.2 0) + v)) }

/-- sparsemat_rowvec.rs lines 113-119, `scale(rhs)`. -/
def SparseMatRowVec.scale (m : SparseMatRowVec) (c : ℚ) : SparseMatRowVec :=
  { m with values := m.values.map (fun row => row.map (fun x => x * c)) }

/-- sparsemat_rowvec.rs lines 67-73, `iter_row(row)`: the zipped row arrays
for a valid row; an out-of-range row panics with "Invalid row". -/
def SparseMatRowVec.iter_row (m : SparseMatRowVec) (row : Nat) :
    Except Err (List (Nat × ℚ)) :=
  if row < m.n_rows then .ok (List.zip (m.columns.getD row []) (m.values.getD row []))
  else .error .invalidRow

/-- sparsemat_rowvec.rs lines 59-65 and 128-147, the whole-matrix cursor,
fully collected.  The first `next()` evaluates `self.mat.n_rows() - 1`: on a
matrix with no rows this usize subtraction underflows (debug panic; a release
build wraps and then indexes `columns[0]` out of bounds), so iteration fails
on an empty matrix either way.  Otherwise the cursor advances `row` past
exhausted rows and yields the concatenation of the zipped row arrays. -/
def SparseMatRowVec.iterAll (m : SparseMatRowVec) :
    Except Err (List (Nat × Nat × ℚ)) :=
  if m.n_rows = 0 then .error .arithmeticUnderflow
  else .ok (((List.range m.n_rows).map
      (fun i => (List.zip (m.columns.getD i []) (m.values.getD i [])).map
        (fun cv => (i, cv.1, cv.2)))).flatten)

/-- One public operation applied to a row-of-arrays matrix. -/
def applyOpRV (m : SparseMatRowVec) : MatOp → SparseMatRowVec
  | .set i j v => m.set i j v
  | .addTo i j v => m.add_to i j v
  | .getMut i j => (m.getMutIdx i j).1
  | .scale c => m.scale c

/-- A sequence of public operations applied to a fresh row-of-arrays matrix. -/
def applyOpsRV (ops : List MatOp) : SparseMatRowVec :=
  ops.foldl applyOpRV SparseMatRowVec.new

/-- The row sorting inside `SparseMatrix::prod` (sparsematrix.rs lines
124-125): `sort_by` on the collected `(col, val)` pairs comparing columns —
a stable sort by column, as is Rust's `sort_by`. -/
def sortByCol (l : List (Nat × ℚ)) : List (Nat × ℚ) :=
  l.mergeSort (fun a b => a.1 ≤ b.1)

/-- sparsematrix.rs lines 116-141, the default `prod(rhs)` instantiated at CRS
operands: panic "Dimension mismatch" unless `n_rows(self) == n_cols(rhs)` and
`n_cols(self) == n_rows(rhs)`; then for every row `i` of `self` (collected and
sorted by column once) and every column `j` of `rhs`, walk `rhs`'s column
entries `(row, val)` and accumulate `val_self * val_rhs` over the sorted row
prefix `col <= row` where `col == row`; write the sum only when non-zero. -/
def SparseMatCRS.prod (a b : SparseMatCRS) : Except Err SparseMatCRS :=
  if a.n_rows ≠ b.n_cols ∨ a.n_cols ≠ b.n_rows then .error .dimensionMismatch
  else
    (List.range a.n_rows).foldlM
      (fun ret i =>
        let colsValsI := sortByCol (a.iter_row i)
        (List.range b.n_cols).foldlM
          (fun ret j => do
            let colEntries ← b.iter_col j
            let sum := colEntries.foldl
              (fun sum rv =>
                (colsValsI.takeWhile (fun cv => cv.1 ≤ rv.1)).foldl
                  (fun s cv => if cv.1 = rv.1 then s + cv.2 * rv.2 else s) sum)
              0
            pure (if sum ≠ 0 then ret.set i j sum else ret))
          ret)
      (SparseMatCRS.with_capacity a.n_non_zero_entries)

/-- densevec.rs `DenseVec<T>` at `T = ℚ`: a plain growable array. -/
abbrev DenseVec := List ℚ

/-- densevec.rs lines 40-42, `get(i)`: direct indexing, panics out of bounds. -/
def denseGet (v : DenseVec) (i : Nat) : Except Err ℚ :=
  match v.get? i with
  | some x => .ok x
  | none => .error .indexOutOfBounds

/-- densevec.rs lines 44-49, `get_mut(i)` combined with a write (`set`):
extend with zeroes up to `i + 1` if needed, then write. -/
def denseSet (v : DenseVec) (i : Nat) (val : ℚ) : DenseVec :=
  (if v.length ≤ i then v ++ List.replicate (i + 1 - v.length) 0 else v).set i val

/-- densevec.rs lines 51-58, `add(rhs)`: panic "Dimension mismatch" when the
receiver is shorter, else add `rhs` element-wise onto the receiver's prefix
(the receiver keeps its own surplus elements). -/
def denseAdd (a b : DenseVec) : Except Err DenseVec :=
  if a.length < b.length then .error .dimensionMismatch
  else .ok (List.zipWith (fun x y => x + y) a b ++ a.drop b.length)

/-- densevec.rs lines 60-67, `sub(rhs)`: as `add`, subtracting. -/
def denseSub (a b : DenseVec) : Except Err DenseVec :=
  if a.length < b.length then .error .dimensionMismatch
  else .ok (List.zipWith (fun x y => x - y) a b ++ a.drop b.length)

/-- densevec.rs lines 69-73, `scale(rhs)`. -/
def denseScale (a : DenseVec) (c : ℚ) : DenseVec := a.map (fun x => x * c)

/-- vector.rs lines 50-53, `inner_prod`: zip the two value streams (truncating
at the shorter), multiply pointwise and sum. -/
def innerProd (a b : DenseVec) : ℚ := (List.zipWith (fun x y => x * y) a b).sum

/-- vector.rs lines 56-58, `norm_squared`. -/
def normSquared (a : DenseVec) : ℚ := (a.map (fun x => x * x)).sum

/-- The `SparseMatrix` trait interface as the conjugate-gradient solver
consumes it (linearsolver.rs is generic over any `M: SparseMatrix`): a row
count, a column count and a row iterator yielding `(col, val)` pairs. -/
structure MatIface where
  nRows : Nat
  nCols : Nat
  iterRow : Nat → List (Nat × ℚ)

/-- sparsematrix.rs lines 90-102, the default `mvp(rhs)` with a `DenseVec`
result: for each row accumulate `sum += rhs.get(j) * val` over the row's
entries (the `get` panics when a column index exceeds the vector) and `set`
the sum at position `i` of a fresh vector. -/
def SparseMatrix.mvp (m : MatIface) (rhs : DenseVec) : Except Err DenseVec :=
  (List.range m.nRows).foldlM
    (fun ret i => do
      let sum ← (m.iterRow i).foldlM
        (fun sum cv => do
          let x ← denseGet rhs cv.1
          pure (sum + x * cv.2))
        0
      pure (denseSet ret i sum))
    []

/-- linearsolver.rs lines 71-90, the iteration of `ConjugateGradient::solve`
(`for _k in 0..self.iter_max`), one recursion step per loop pass.  The
convergence test of the source is `f64::sqrt(r_norm_squared) < self.tol`; over
the exact rationals of the model, with `r_norm_squared` a sum of squares (hence
non-negative) and the configured tolerance positive (the default is `1e-12`),
that test is equivalent to `r_norm_squared < tol * tol`, which is how it is
embedded.  Division is exact rational division (the idealization of the
source's floating division). -/
def cgLoop (m : MatIface) (tol : ℚ) :
    Nat → DenseVec → DenseVec → DenseVec → ℚ → Except Err DenseVec
  | 0, x, _, _, _ => .ok x
  | k + 1, x, r, p, rr => do
    let matP ← SparseMatrix.mvp m p
    let alpha := rr / innerProd p matP
    let x' ← denseAdd x (denseScale p alpha)
    let r' ← denseSub r (denseScale matP alpha)
    let rr' := normSquared r'
    if rr' < tol * tol then .ok x'
    else
      let beta := rr' / rr
      let p' ← denseAdd (denseScale p beta) r'
      cgLoop m tol k x' r' p' rr'

/-- linearsolver.rs lines 57-91, `ConjugateGradient::solve(mat, b, x)`: panic
"Matrix is not symmetric" for a non-square matrix, panic "Matrix and vector
size mismatch" when the vectors disagree with it, then `r = b - A*x`, `p = r`,
and the iteration `cgLoop`; the final `x` is the solver's result (the source
mutates `x` in place). -/
def ConjugateGradient.solve (m : MatIface) (tol : ℚ) (iterMax : Nat)
    (b x : DenseVec) : Except Err DenseVec :=
  if m.nRows ≠ m.nCols then .error .notSymmetric
  else if m.nRows ≠ b.length ∨ m.nRows ≠ x.length then .error .sizeMismatch
  else do
    let ax ← SparseMatrix.mvp m x
    let r ← denseSub b ax
    cgLoop m tol iterMax x r r (normSquared r)

/-- The claim's reading of the matrix-vector product: row `i` of `A·v` is the
sum of `v[col] * val` over the row's entries. -/
def cgSpecMvp (m : MatIface) (v : DenseVec) : DenseVec :=
  (List.range m.nRows).map
    (fun i => ((m.iterRow i).map (fun cv => v.getD cv.1 0 * cv.2)).sum)

/-- The claim's reading of one conjugate-gradient iteration, as a total
function on exact rationals: `alpha = rr / (p·(A·p))`, `x += alpha*p`,
`r -= alpha*(A·p)`, recompute `rr`; stop on convergence, else
`beta = new rr / old rr`, `p = r + beta*p`, continue — for at most the
configured number of iterations. -/
def cgSpecLoop (m : MatIface) (tol : ℚ) :
    Nat → DenseVec → DenseVec → DenseVec → ℚ → DenseVec
  | 0, x, _, _, _ => x
  | k + 1, x, r, p, rr =>
    let ap := cgSpecMvp m p
    let alpha := rr / innerProd p ap
    let x' := List.zipWith (fun a b => a + b) x (denseScale p alpha)
    let r' := List.zipWith (fun a b => a - b) r (denseScale ap alpha)
    let rr' := normSquared r'
    if rr' < tol * tol then x'
    else cgSpecLoop m tol k x' r' (List.zipWith (fun a b => a + b) r' (denseScale p (rr' / rr))) rr'

/-- The claim's reading of the whole solve: `r = b - A·x`, `p = r`, iterate. -/
def cgSpecSolve (m : MatIface) (tol : ℚ) (iterMax : Nat) (b x : DenseVec) :
    DenseVec :=
  let r := List.zipWith (fun a b => a - b) b (cgSpecMvp m x)
  cgSpecLoop m tol iterMax x r r (normSquared r)

/-- A finite, sentinel-terminated chain of the linked index: `ChainFrom il st L`
says that following links from `st` visits exactly the slots `L` and ends at
the sentinel, with every visited slot in bounds. -/
inductive ChainFrom (il : List (Option Nat)) : Option Nat → List Nat → Prop where
  | nil : ChainFrom il none []
  | cons (h : Nat) (L : List Nat) (hlt : h < il.length)
      (tl : ChainFrom il (chainStep il h) L) : ChainFrom il (some h) (h :: L)

theorem chainFrom_none {il : List (Option Nat)} {L : List Nat}
    (hc : ChainFrom il none L) : L = [] := by
  cases hc
  rfl

theorem chainFrom_some {il : List (Option Nat)} {h : Nat} {L : List Nat}
    (hc : ChainFrom il (some h) L) :
    ∃ L', L = h :: L' ∧ h < il.length ∧ ChainFrom il (chainStep il h) L' := by
  cases hc with
  | cons _ L' hlt tl => exact ⟨L', rfl, hlt, tl⟩

theorem chainFrom_mem_lt {il : List (Option Nat)} {st : Option Nat} {L : List Nat}
    (hc : ChainFrom il st L) : ∀ s ∈ L, s < il.length := by
  induction hc with
  | nil => intro s hs; cases hs
  | cons h L hlt _ ih =>
    intro s hs
    rcases List.mem_cons.mp hs with rfl | hs
    · exact hlt
    · exact ih s hs

theorem chainList_eq_of_chainFrom {il : List (Option Nat)} {st : Option Nat}
    {L : List Nat} (hc : ChainFrom il st L) :
    ∀ fuel, L.length ≤ fuel → chainList il fuel st = L := by
  induction hc with
  | nil => intro fuel _; cases fuel <;> rfl
  | cons h L _ _ ih =>
    intro fuel hfuel
    cases fuel with
    | zero => simp at hfuel
    | succ f =>
      have : L.length ≤ f := by simpa [Nat.succ_le_succ_iff] using hfuel
      simp [chainList, ih f this]

theorem chainFrom_nil_inv {il : List (Option Nat)} {st : Option Nat}
    (hc : ChainFrom il st []) : st = none := by
  cases hc
  rfl

theorem chainFrom_cons_inv {il : List (Option Nat)} {st : Option Nat} {h2 : Nat}
    {L2 : List Nat} (hc : ChainFrom il st (h2 :: L2)) :
    st = some h2 ∧ h2 < il.length ∧ ChainFrom il (chainStep il h2) L2 := by
  cases hc with
  | cons _ _ hlt tl => exact ⟨rfl, hlt, tl⟩

theorem chainTail_eq_of_chainFrom {il : List (Option Nat)} :
    ∀ {L : List Nat} {h : Nat}, ChainFrom il (some h) (h :: L) →
    ∀ fuel, L.length ≤ fuel →
    chainTail il fuel h = (h :: L).getLast (List.cons_ne_nil h L) := by
  intro L
  induction L with
  | nil =>
    intro h hc fuel _
    rcases chainFrom_some hc with ⟨L', hL', _, tl⟩
    have hL'nil : L' = [] := by simpa using hL'.symm
    subst hL'nil
    have hstep : chainStep il h = none := chainFrom_nil_inv tl
    cases fuel with
    | zero => rfl
    | succ f => simp [chainTail, hstep, List.getLast]
  | cons h2 L2 ih =>
    intro h hc fuel hfuel
    rcases chainFrom_some hc with ⟨L', hL', _, tl⟩
    have hL'eq : L' = h2 :: L2 := by simpa using hL'.symm
    subst hL'eq
    rcases chainFrom_cons_inv tl with ⟨hstep, hlt2, tl2⟩
    have htl : ChainFrom il (some h2) (h2 :: L2) :=
      ChainFrom.cons h2 L2 hlt2 tl2
    cases fuel with
    | zero => simp at hfuel
    | succ f =>
      have hf : L2.length ≤ f := by simpa [Nat.succ_le_succ_iff] using hfuel
      have := ih htl f hf
      simp only [chainTail, hstep]
      rw [this]
      simp [List.getLast]

theorem chainStep_append {il il2 : List (Option Nat)} {h : Nat}
    (hlt : h < il.length) : chainStep (il ++ il2) h = chainStep il h := by
  unfold chainStep
  exact List.getD_append il il2 none h hlt

theorem chainFrom_append {il il2 : List (Option Nat)} {st : Option Nat}
    {L : List Nat} (hc : ChainFrom il st L) : ChainFrom (il ++ il2) st L := by
  induction hc with
  | nil => exact ChainFrom.nil
  | cons h L hlt tl ih =>
    refine ChainFrom.cons h L ?_ ?_
    · simp only [List.length_append]
      omega
    · rw [chainStep_append hlt]
      exact ih

theorem chainStep_set_ne {il : List (Option Nat)} {t h : Nat} {v : Option Nat}
    (hne : h ≠ t) : chainStep (il.set t v) h = chainStep il h := by
  unfold chainStep
  rw [List.getD_eq_getElem?_getD, List.getD_eq_getElem?_getD,
    List.getElem?_set_ne (fun he => hne he.symm)]

theorem chainFrom_set_of_not_mem {il : List (Option Nat)} {st : Option Nat}
    {L : List Nat} {t : Nat} {v : Option Nat} (hc : ChainFrom il st L)
    (ht : t ∉ L) : ChainFrom (il.set t v) st L := by
  induction hc with
  | nil => exact ChainFrom.nil
  | cons h L hlt tl ih =>
    have hne : h ≠ t := fun he => ht (he ▸ List.mem_cons_self h L)
    refine ChainFrom.cons h L ?_ ?_
    · simpa using hlt
    · rw [chainStep_set_ne hne]
      exact ih (fun hm => ht (List.mem_cons_of_mem h hm))

/-- Chain surgery of `RowIndexList::push`: appending a fresh sentinel slot at
position `n = il.length` and redirecting the old tail link to it extends the
chain by exactly that slot. -/
theorem chainFrom_extend {il : List (Option Nat)} :
    ∀ {L : List Nat} {h : Nat}, ChainFrom il (some h) (h :: L) → (h :: L).Nodup →
    ChainFrom ((il ++ [none]).set ((h :: L).getLast (List.cons_ne_nil h L))
        (some il.length))
      (some h) ((h :: L) ++ [il.length]) := by
  intro L
  induction L with
  | nil =>
    intro h hc _
    rcases chainFrom_some hc with ⟨L', hL', hlt, tl⟩
    have hL'nil : L' = [] := by simpa using hL'.symm
    subst hL'nil
    have hstep : chainStep il h = none := chainFrom_nil_inv tl
    have hlen : h < ((il ++ [none]).set h (some il.length)).length := by
      simp only [List.length_set, List.length_append, List.length_replicate]
      simp only [List.length_cons, List.length_nil]
      omega
    refine ChainFrom.cons h [il.length] hlen ?_
    have hstep2 : chainStep ((il ++ [none]).set h (some il.length)) h
        = some il.length := by
      unfold chainStep
      rw [List.getD_eq_getElem?_getD, List.getElem?_set_self (by simp; omega)]
      rfl
    rw [show ((h : Nat) :: []).getLast (List.cons_ne_nil h []) = h from rfl] at *
    rw [hstep2]
    have hlenn : il.length < ((il ++ [none]).set h (some il.length)).length := by
      simp only [List.length_set, List.length_append, List.length_cons,
        List.length_nil]
      omega
    refine ChainFrom.cons il.length [] hlenn ?_
    have : chainStep ((il ++ [none]).set h (some il.length)) il.length = none := by
      have hne : il.length ≠ h := Nat.ne_of_gt hlt
      rw [chainStep_set_ne hne]
      unfold chainStep
      rw [List.getD_eq_getElem?_getD, List.getElem?_append_right (Nat.le_refl _)]
      simp
    rw [this]
    exact ChainFrom.nil
  | cons h2 L2 ih =>
    intro h hc hnd
    rcases chainFrom_some hc with ⟨L', hL', hlt, tl⟩
    have hL'eq : L' = h2 :: L2 := by simpa using hL'.symm
    subst hL'eq
    rcases chainFrom_cons_inv tl with ⟨hstep, hlt2, tl2⟩
    have htl : ChainFrom il (some h2) (h2 :: L2) := ChainFrom.cons h2 L2 hlt2 tl2
    have hnd2 : (h2 :: L2).Nodup := hnd.of_cons
    have hih := ih htl hnd2
    have hlast : ((h : Nat) :: h2 :: L2).getLast (List.cons_ne_nil _ _)
        = (h2 :: L2).getLast (List.cons_ne_nil _ _) := by
      simp [List.getLast]
    rw [hlast]
    have htail_mem : (h2 :: L2).getLast (List.cons_ne_nil _ _) ∈ h2 :: L2 :=
      List.getLast_mem _
    have hne : h ≠ (h2 :: L2).getLast (List.cons_ne_nil _ _) := by
      intro he
      have : h ∈ h2 :: L2 := he ▸ htail_mem
      exact (List.nodup_cons.mp hnd).1 this
    refine ChainFrom.cons h ((h2 :: L2) ++ [il.length]) ?_ ?_
    · simp only [List.length_set, List.length_append, List.length_cons,
        List.length_nil]
      omega
    · rw [chainStep_set_ne hne, chainStep_append hlt, hstep]
      exact hih

theorem getD_set_self {α : Type} {l : List α} {i : Nat} {v d : α}
    (h : i < l.length) : (l.set i v).getD i d = v := by
  rw [List.getD_eq_getElem?_getD, List.getElem?_set_self h]
  rfl

theorem getD_set_ne {α : Type} {l : List α} {i j : Nat} {v d : α}
    (h : i ≠ j) : (l.set i v).getD j d = l.getD j d := by
  rw [List.getD_eq_getElem?_getD, List.getElem?_set_ne h,
    ← List.getD_eq_getElem?_getD]

theorem vecResize_getD_none {l : List (Option Nat)} {n : Nat}
    (h : l.length ≤ n) : ∀ i, (vecResize l n none).getD i none = l.getD i none := by
  intro i
  unfold vecResize
  rcases Nat.lt_or_ge i l.length with hi | hi
  · split
    · have : n = l.length := Nat.le_antisymm (by assumption) h
      rw [this, List.take_length]
    · exact List.getD_append _ _ _ _ hi
  · have hr : l.getD i none = none := List.getD_eq_default _ _ hi
    rw [hr]
    split
    · refine List.getD_eq_default _ _ ?_
      simp only [List.length_take]
      omega
    · rw [List.getD_eq_getElem?_getD, List.getElem?_append_right hi]
      rcases Nat.lt_or_ge (i - l.length) (n - l.length) with hlt | hge
      · simp [List.getElem?_replicate, hlt]
      · simp [List.getElem?_replicate, Nat.not_lt.mpr hge]

theorem vecResize_length {α : Type} (l : List α) (n : Nat) (v : α) :
    (vecResize l n v).length = n := by
  unfold vecResize
  split
  · simp
    omega
  · simp
    omega

theorem flatten_getD_length_le (ch : List (List Nat)) (i : Nat) :
    (ch.getD i []).length ≤ ch.flatten.length := by
  induction ch generalizing i with
  | nil => simp [List.getD]
  | cons a t ih =>
    cases i with
    | zero => simp [List.getD]
    | succ k =>
      have := ih k
      simp only [List.getD_cons_succ, List.flatten_cons, List.length_append]
      omega

theorem padded_getD (ch : List (List Nat)) (k i : Nat) :
    (ch ++ List.replicate k ([] : List Nat)).getD i [] = ch.getD i [] := by
  rcases Nat.lt_or_ge i ch.length with hi | hi
  · exact List.getD_append _ _ _ _ hi
  · rw [List.getD_eq_default _ _ hi, List.getD_eq_getElem?_getD,
      List.getElem?_append_right hi]
    rcases Nat.lt_or_ge (i - ch.length) k with hlt | hge
    · simp [List.getElem?_replicate, hlt]
    · simp [List.getElem?_replicate, Nat.not_lt.mpr hge]

theorem padded_flatten (ch : List (List Nat)) (k : Nat) :
    (ch ++ List.replicate k ([] : List Nat)).flatten = ch.flatten := by
  rw [List.flatten_append]
  have : (List.replicate k ([] : List Nat)).flatten = [] := by
    induction k with
    | zero => rfl
    | succ m ih => simp [List.replicate_succ, ih]
  rw [this, List.append_nil]

theorem flatten_set_perm : ∀ (ch : List (List Nat)) (i : Nat), i < ch.length →
    ∀ (x : Nat), (ch.set i (ch.getD i [] ++ [x])).flatten.Perm (ch.flatten ++ [x]) := by
  intro ch
  induction ch with
  | nil => intro i hi; cases hi
  | cons a t ih =>
    intro i hi x
    cases i with
    | zero =>
      simp only [List.set_cons_zero, List.flatten_cons, List.getD_cons_zero]
      have h1 : (a ++ [x]) ++ t.flatten = a ++ ([x] ++ t.flatten) := by
        rw [List.append_assoc]
      have h2 : (a ++ t.flatten) ++ [x] = a ++ (t.flatten ++ [x]) := by
        rw [List.append_assoc]
      rw [h1, h2]
      exact List.Perm.append_left a List.perm_append_comm
    | succ k =>
      have hk : k < t.length := by simpa using hi
      simp only [List.set_cons_succ, List.flatten_cons, List.getD_cons_succ]
      have := (ih k hk x).append_left a
      rw [← List.append_assoc] at this
      exact this

theorem block_nodup {ch : List (List Nat)} (hnd : ch.flatten.Nodup) (i : Nat) :
    (ch.getD i []).Nodup := by
  rcases Nat.lt_or_ge i ch.length with hi | hi
  · have hmem : ch.getD i [] ∈ ch := by
      rw [List.getD_eq_getElem?_getD, List.getElem?_eq_getElem hi]
      exact List.getElem_mem hi
    exact ((List.nodup_flatten.mp hnd).1 _ hmem)
  · rw [List.getD_eq_default _ _ hi]
    exact List.nodup_nil

theorem block_disjoint {ch : List (List Nat)} (hnd : ch.flatten.Nodup)
    {i j : Nat} (hij : i ≠ j) : List.Disjoint (ch.getD i []) (ch.getD j []) := by
  have hpw := (List.nodup_flatten.mp hnd).2
  rcases Nat.lt_or_ge i ch.length with hi | hi
  · rcases Nat.lt_or_ge j ch.length with hj | hj
    · have hgi : ch.getD i [] = ch[i] := by
        rw [List.getD_eq_getElem?_getD, List.getElem?_eq_getElem hi]; rfl
      have hgj : ch.getD j [] = ch[j] := by
        rw [List.getD_eq_getElem?_getD, List.getElem?_eq_getElem hj]; rfl
      rw [hgi, hgj]
      rcases Nat.lt_or_ge i j with hlt | hge
      · exact (List.pairwise_iff_getElem.mp hpw) i j hi hj hlt
      · have hlt : j < i := by omega
        exact ((List.pairwise_iff_getElem.mp hpw) j i hj hi hlt).symm
    · rw [List.getD_eq_default _ _ hj]
      exact fun a _ ha => (List.not_mem_nil a) ha
  · rw [List.getD_eq_default _ _ hi]
    exact fun a ha _ => (List.not_mem_nil a) ha

/-- Well-formedness of the linked row index: a family of chains, one per row,
that together visit every slot exactly once (their concatenation is a
permutation of all slot positions).  This is the invariant every
`RowIndexList` reachable through `push` from `new` satisfies. -/
def RowIndexList.rwf (l : RowIndexList) : Prop :=
  ∃ ch : List (List Nat),
    ch.length = l.row_start.length ∧
    (∀ i, ChainFrom l.index_list (l.row_start.getD i none) (ch.getD i [])) ∧
    ch.flatten.Perm (List.range l.index_list.length)

theorem rwf_new : RowIndexList.new.rwf := by
  refine ⟨[], rfl, ?_, by simp [RowIndexList.new]⟩
  intro i
  simp only [List.getD]
  exact ChainFrom.nil

theorem iterRow_eq_block {l : RowIndexList} {ch : List (List Nat)}
    (hch : ∀ i, ChainFrom l.index_list (l.row_start.getD i none) (ch.getD i []))
    (hperm : ch.flatten.Perm (List.range l.index_list.length)) :
    ∀ i, l.iterRow i = ch.getD i [] := by
  intro i
  unfold RowIndexList.iterRow
  have hstart : (if i < l.row_start.length then l.row_start.getD i none else none)
      = l.row_start.getD i none := by
    split
    · rfl
    · rw [List.getD_eq_default]
      omega
  rw [hstart]
  apply chainList_eq_of_chainFrom (hch i)
  calc (ch.getD i []).length ≤ ch.flatten.length := flatten_getD_length_le ch i
    _ = l.index_list.length := by rw [hperm.length_eq, List.length_range]

/-- The effect of `RowIndexList::push(row)` on a well-formed index: the result
is well-formed, the returned slot is the previous entry count, and every row\'s
iteration is unchanged except that `row` gains the new slot at its end. -/
theorem rwf_push {l : RowIndexList} (hw : l.rwf) (row : Nat) :
    (l.push row).1.rwf
    ∧ (∀ i, (l.push row).1.iterRow i =
        if i = row then l.iterRow i ++ [l.index_list.length] else l.iterRow i)
    ∧ (l.push row).2 = l.index_list.length
    ∧ (l.push row).1.index_list.length = l.index_list.length + 1
    ∧ (l.push row).1.row_start.length = max l.row_start.length (row + 1) := by
  obtain ⟨ch, hchlen, hch, hperm⟩ := hw
  have hndflat : ch.flatten.Nodup :=
    hperm.nodup_iff.mpr (List.nodup_range _)
  set n := l.index_list.length with hn
  set rs := if l.row_start.length ≤ row
    then vecResize l.row_start (row + 1) none else l.row_start with hrs
  have hrsget : ∀ i, rs.getD i none = l.row_start.getD i none := by
    intro i
    rw [hrs]
    split
    · exact vecResize_getD_none (by omega) i
    · rfl
  have hrslen : rs.length = max l.row_start.length (row + 1) := by
    rw [hrs]
    split
    · rw [vecResize_length]
      omega
    · omega
  have hrowlt : row < rs.length := by omega
  have hiter : ∀ i, l.iterRow i = ch.getD i [] := iterRow_eq_block hch hperm
  have hblock_le : ∀ i, (ch.getD i []).length ≤ n := by
    intro i
    calc (ch.getD i []).length ≤ ch.flatten.length := flatten_getD_length_le ch i
      _ = n := by rw [hperm.length_eq, List.length_range]
  have hpush : l.push row = (match rs.getD row none with
      | none => (⟨rs.set row (some n), l.index_list ++ [none]⟩, n)
      | some head =>
        (⟨rs, (l.index_list ++ [none]).set
            (chainTail (l.index_list ++ [none]) (l.index_list ++ [none]).length head)
            (some n)⟩, n)) := by
    rw [RowIndexList.push]
  rcases hcase : rs.getD row none with _ | head
  · -- the row is empty (or new): the fresh slot becomes the chain head
    have hrownone : l.row_start.getD row none = none := by rw [← hrsget]; exact hcase
    have hrowblock : ch.getD row [] = [] := by
      have := hch row
      rw [hrownone] at this
      exact chainFrom_none this
    have hres : l.push row = (⟨rs.set row (some n), l.index_list ++ [none]⟩, n) := by
      rw [hpush, hcase]
    set padded := ch ++ List.replicate (rs.length - ch.length) ([] : List Nat)
      with hpad
    set ch' := padded.set row ([n]) with hch'
    have hpadlen : padded.length = rs.length := by
      rw [hpad]
      simp only [List.length_append, List.length_replicate]
      omega
    have hpadget : ∀ i, padded.getD i [] = ch.getD i [] := fun i => padded_getD ch _ i
    have hchget : ∀ i, i ≠ row → ch'.getD i [] = ch.getD i [] := by
      intro i hne
      rw [hch', getD_set_ne (fun he => hne he.symm), hpadget]
    have hchrow : ch'.getD row [] = [n] := by
      rw [hch', getD_set_self (by omega)]
    have hch'flat : ch'.flatten.Perm (List.range (n + 1)) := by
      have h0 : padded.getD row [] = [] := by rw [hpadget, hrowblock]
      have hsp := flatten_set_perm padded row (show row < padded.length by omega) n
      rw [h0, List.nil_append, padded_flatten ch _] at hsp
      rw [hch']
      exact hsp.trans ((hperm.append_right [n]).trans (by rw [List.range_succ]))
    have hchainnew : ∀ i, ChainFrom (l.index_list ++ [none])
        ((rs.set row (some n)).getD i none) (ch'.getD i []) := by
      intro i
      rcases eq_or_ne i row with rfl | hne
      · rw [getD_set_self hrowlt, hchrow]
        refine ChainFrom.cons n [] (by simp) ?_
        have hstep0 : chainStep (l.index_list ++ [none]) n = none := by
          unfold chainStep
          rw [List.getD_eq_getElem?_getD, List.getElem?_append_right (Nat.le_refl _)]
          simp
        rw [hstep0]
        exact ChainFrom.nil
      · rw [getD_set_ne (fun he => hne he.symm), hrsget, hchget i hne]
        exact chainFrom_append (hch i)
    have hrwf : (l.push row).1.rwf := by
      rw [hres]
      refine ⟨ch', ?_, hchainnew, by simpa using hch'flat⟩
      show ch'.length = (rs.set row (some n)).length
      rw [hch']
      simp only [List.length_set]
      exact hpadlen
    refine ⟨hrwf, ?_, by rw [hres], by rw [hres]; simp, by rw [hres]; simpa using hrslen⟩
    intro i
    have hlift := iterRow_eq_block (l := ⟨rs.set row (some n), l.index_list ++ [none]⟩)
      hchainnew (by simpa using hch'flat)
    rw [hres]
    rcases eq_or_ne i row with rfl | hne
    · rw [hlift i, hchrow, hiter i, hrowblock]
      simp
    · rw [hlift i, hchget i hne, hiter i]
      simp [hne]
  · -- the row has a chain: the fresh slot is linked after the current tail
    have hrowsome : l.row_start.getD row none = some head := by
      rw [← hrsget]; exact hcase
    have hrowin : row < l.row_start.length := by
      by_contra hx
      rw [List.getD_eq_default _ _ (by omega)] at hrowsome
      cases hrowsome
    have hrseq : rs = l.row_start := by
      rw [hrs, if_neg (by omega)]
    have hchainrow := hch row
    rw [hrowsome] at hchainrow
    obtain ⟨rest, hresteq, _, _⟩ := chainFrom_some hchainrow
    have hchainrow' : ChainFrom l.index_list (some head) (head :: rest) := by
      rw [← hresteq]; exact hchainrow
    have hrestlen : (head :: rest).length ≤ n := by
      rw [← hresteq]; exact hblock_le row
    have hext : ChainFrom (l.index_list ++ [none]) (some head) (head :: rest) :=
      chainFrom_append hchainrow'
    have htail : chainTail (l.index_list ++ [none]) (l.index_list ++ [none]).length head
        = (head :: rest).getLast (List.cons_ne_nil _ _) := by
      apply chainTail_eq_of_chainFrom hext
      simp only [List.length_append, List.length_cons, List.length_nil]
      simp only [List.length_cons] at hrestlen
      omega
    set t := (head :: rest).getLast (List.cons_ne_nil _ _) with ht
    set il' := (l.index_list ++ [none]).set t (some n) with hil'
    have hres : l.push row = (⟨rs, il'⟩, n) := by
      rw [hpush, hcase]
      simp only
      rw [htail]
    have hrownd : (head :: rest).Nodup := by
      rw [← hresteq]
      exact block_nodup hndflat row
    have hsurg : ChainFrom il' (some head) ((head :: rest) ++ [n]) :=
      chainFrom_extend hchainrow' hrownd
    set ch' := ch.set row ((head :: rest) ++ [n]) with hch'
    have htmem : t ∈ head :: rest := List.getLast_mem _
    have hchget : ∀ i, i ≠ row → ch'.getD i [] = ch.getD i [] := by
      intro i hne
      rw [hch', getD_set_ne (fun he => hne he.symm)]
    have hchrow : ch'.getD row [] = (head :: rest) ++ [n] := by
      rw [hch', getD_set_self (by omega)]
    have hchainnew : ∀ i, ChainFrom il' (rs.getD i none) (ch'.getD i []) := by
      intro i
      rcases eq_or_ne i row with rfl | hne
      · rw [hrsget, hrowsome, hchrow]
        exact hsurg
      · rw [hrsget, hchget i hne]
        have hdisj : List.Disjoint (ch.getD i []) (ch.getD row []) :=
          block_disjoint hndflat hne
        have htni : t ∉ ch.getD i [] := by
          intro hmem
          exact hdisj hmem (by rw [← hresteq] at htmem; exact htmem)
        rw [hil']
        exact chainFrom_set_of_not_mem (chainFrom_append (hch i)) htni
    have hch'flat : ch'.flatten.Perm (List.range (n + 1)) := by
      have hsp := flatten_set_perm ch row (show row < ch.length by omega) n
      rw [hresteq] at hsp
      rw [hch']
      exact hsp.trans ((hperm.append_right [n]).trans (by rw [List.range_succ]))
    have hillen : il'.length = n + 1 := by
      rw [hil']
      simp
    have hrwf : (l.push row).1.rwf := by
      rw [hres]
      refine ⟨ch', ?_, hchainnew, ?_⟩
      · show ch'.length = rs.length
        rw [hch']
        simp only [List.length_set]
        rw [hchlen, hrseq]
      · rw [show (RowIndexList.mk rs il').index_list = il' from rfl, hillen]
        exact hch'flat
    refine ⟨hrwf, ?_, by rw [hres], by rw [hres]; simpa using hillen, ?_⟩
    · intro i
      have hlift := iterRow_eq_block (l := ⟨rs, il'⟩) hchainnew
        (by rw [show (RowIndexList.mk rs il').index_list = il' from rfl, hillen]
            exact hch'flat)
      rw [hres]
      rcases eq_or_ne i row with rfl | hne
      · rw [hlift i, hchrow, hiter i, ← hresteq]
        simp
      · rw [hlift i, hchget i hne, hiter i]
        simp [hne]
    · rw [hres]
      simp only
      rw [hrseq]
      omega

/-- The getD of an in-bounds position does not depend on the default. -/
theorem getD_eq_getD_of_lt {α : Type} {l : List α} {i : Nat} (h : i < l.length)
    (d d' : α) : l.getD i d = l.getD i d' := by
  rw [List.getD_eq_getElem?_getD, List.getD_eq_getElem?_getD,
    List.getElem?_eq_getElem h]
  rfl

theorem chainList_none (il : List (Option Nat)) (fuel : Nat) :
    chainList il fuel none = [] := by
  cases fuel <;> rfl

theorem iterRow_out_of_range {l : RowIndexList} {r : Nat}
    (h : l.row_start.length ≤ r) : l.iterRow r = [] := by
  unfold RowIndexList.iterRow
  rw [if_neg (Nat.not_lt.mpr h)]
  exact chainList_none _ _

/-- Well-formedness of an incremental index-list matrix, as established by any
sequence of public operations: the linked index is well formed and in lock-step
with the parallel arrays, the column-tracking mirror is off (the public
constructors leave it off), each row holds pairwise distinct columns, and an
entry-free matrix has no rows and no columns. -/
structure ILInv (m : SparseMatIndexList) : Prop where
  hrwf : m.indexlist.rwf
  len_cv : m.values.length = m.columns.length
  len_il : m.indexlist.index_list.length = m.columns.length
  htrack : m.track_cols = false
  keysNodup : ∀ i, ((m.indexlist.iterRow i).map (fun s => m.columns.getD s 0)).Nodup
  empty_rows : m.columns = [] → m.indexlist.row_start = []
  empty_cols : m.columns = [] → m.n_cols = 0

theorem ILInv.slots_lt {m : SparseMatIndexList} (h : ILInv m) :
    ∀ i, ∀ s ∈ m.indexlist.iterRow i, s < m.columns.length := by
  obtain ⟨ch, _, hch, hperm⟩ := h.hrwf
  intro i s hs
  rw [iterRow_eq_block hch hperm i] at hs
  exact h.len_il ▸ chainFrom_mem_lt (hch i) s hs

theorem ilinv_new : ILInv SparseMatIndexList.new := by
  refine ⟨rwf_new, rfl, rfl, rfl, ?_, fun _ => rfl, fun _ => rfl⟩
  intro i
  have : RowIndexList.new.iterRow i = [] := rfl
  rw [show SparseMatIndexList.new.indexlist = RowIndexList.new from rfl, this]
  exact List.nodup_nil

/-- The effect of `SparseMatIndexList::push` for a missing entry on a
well-formed matrix: the invariant is preserved and row `i` gains the entry
`(j, val)` at its end, all other rows unchanged. -/
theorem ilinv_push {m : SparseMatIndexList} (h : ILInv m) (i j : Nat) (v : ℚ)
    (hfind : m.find_index i j = none) :
    ILInv (m.push i j v).1
    ∧ (∀ r, (m.push i j v).1.iter_row r =
        if r = i then m.iter_row r ++ [(j, v)] else m.iter_row r)
    ∧ (m.push i j v).1.columns = m.columns ++ [j]
    ∧ (m.push i j v).1.values = m.values ++ [v]
    ∧ (m.push i j v).1.n_rows = max m.n_rows (i + 1)
    ∧ (m.push i j v).1.n_cols = max m.n_cols (j + 1) := by
  have htrack := h.htrack
  obtain ⟨hpw, hpiter, hpidx, hpilen, hprslen⟩ := rwf_push h.hrwf i
  have hpushm : (m.push i j v).1 =
      { m with n_cols := max m.n_cols (j + 1),
               indexlist := (m.indexlist.push i).1,
               columns := m.columns ++ [j],
               values := m.values ++ [v] } := by
    unfold SparseMatIndexList.push
    rcases Nat.lt_or_ge j m.n_cols with hj | hj
    · rw [if_neg (by omega)]
      simp only [htrack, if_neg Bool.false_ne_true]
      have : max m.n_cols (j + 1) = m.n_cols := by omega
      rw [this]
    · rw [if_pos (by omega)]
      simp only [htrack, if_neg Bool.false_ne_true]
      have : max m.n_cols (j + 1) = j + 1 := by omega
      rw [this]
  have hslots := h.slots_lt
  have hitermap : ∀ r, (m.push i j v).1.iter_row r =
      if r = i then m.iter_row r ++ [(j, v)] else m.iter_row r := by
    intro r
    rw [hpushm]
    unfold SparseMatIndexList.iter_row
    simp only
    rw [hpiter r]
    rcases eq_or_ne r i with rfl | hne
    · rw [if_pos rfl, if_pos rfl, List.map_append]
      congr 1
      · apply List.map_congr_left
        intro s hs
        have hlt := hslots r s hs
        have hltv : s < m.values.length := by rw [h.len_cv]; exact hlt
        rw [List.getD_append _ _ _ _ hlt, List.getD_append _ _ _ _ hltv]
      · simp only [List.map_cons, List.map_nil]
        have hc : (m.columns ++ [j]).getD m.indexlist.index_list.length 0 = j := by
          rw [List.getD_eq_getElem?_getD,
            List.getElem?_append_right (by rw [h.len_il]), h.len_il]
          simp
        have hv : (m.values ++ [v]).getD m.indexlist.index_list.length 0 = v := by
          rw [List.getD_eq_getElem?_getD,
            List.getElem?_append_right (by rw [h.len_il, ← h.len_cv]),
            h.len_il, ← h.len_cv]
          simp
        rw [hc, hv]
    · rw [if_neg hne, if_neg hne]
      apply List.map_congr_left
      intro s hs
      have hlt := hslots r s hs
      have hltv : s < m.values.length := by rw [h.len_cv]; exact hlt
      rw [List.getD_append _ _ _ _ hlt, List.getD_append _ _ _ _ hltv]
  have hkeys : ∀ r, (((m.push i j v).1.indexlist.iterRow r).map
      (fun s => (m.push i j v).1.columns.getD s 0)).Nodup := by
    intro r
    rw [hpushm]
    simp only
    rw [hpiter r]
    rcases eq_or_ne r i with rfl | hne
    · rw [if_pos rfl, List.map_append]
      have hold : (m.indexlist.iterRow r).map (fun s => (m.columns ++ [j]).getD s 0)
          = (m.indexlist.iterRow r).map (fun s => m.columns.getD s 0) := by
        apply List.map_congr_left
        intro s hs
        exact List.getD_append _ _ _ _ (hslots r s hs)
      rw [hold]
      simp only [List.map_cons, List.map_nil]
      have hc : (m.columns ++ [j]).getD m.indexlist.index_list.length 0 = j := by
        rw [List.getD_eq_getElem?_getD,
          List.getElem?_append_right (by rw [h.len_il]), h.len_il]
        simp
      rw [hc]
      have hnotin : j ∉ (m.indexlist.iterRow r).map (fun s => m.columns.getD s 0) := by
        intro hmem
        obtain ⟨s, hs, hkey⟩ := List.mem_map.mp hmem
        unfold SparseMatIndexList.find_index at hfind
        rcases Nat.lt_or_ge r m.n_rows with hr | hr
        · rw [if_pos hr] at hfind
          have := List.find?_eq_none.mp hfind s hs
          apply this
          have hlt := hslots r s hs
          rw [getD_eq_getD_of_lt hlt 0 (j + 1)] at hkey
          simpa using hkey
        · have hempty : m.indexlist.iterRow r = [] :=
            iterRow_out_of_range (by
              have : m.n_rows = m.indexlist.row_start.length := rfl
              omega)
          rw [hempty] at hs
          cases hs
      refine List.Nodup.append (h.keysNodup r) (List.nodup_singleton j) ?_
      intro a ha hb
      rw [List.mem_singleton] at hb
      exact hnotin (hb ▸ ha)
    · rw [if_neg hne]
      have hold : (m.indexlist.iterRow r).map (fun s => (m.columns ++ [j]).getD s 0)
          = (m.indexlist.iterRow r).map (fun s => m.columns.getD s 0) := by
        apply List.map_congr_left
        intro s hs
        exact List.getD_append _ _ _ _ (hslots r s hs)
      rw [hold]
      exact h.keysNodup r
  refine ⟨⟨?_, ?_, ?_, ?_, hkeys, ?_, ?_⟩, hitermap, ?_, ?_, ?_, ?_⟩
  · rw [hpushm]
    exact hpw
  · rw [hpushm]
    simp [h.len_cv]
  · rw [hpushm]
    simp only
    rw [hpilen, h.len_il]
    simp
  · rw [hpushm]
    exact htrack
  · rw [hpushm]
    intro hcols
    simp at hcols
  · rw [hpushm]
    intro hcols
    simp at hcols
  · rw [hpushm]
  · rw [hpushm]
  · rw [hpushm]
    show (m.indexlist.push i).1.row_start.length = max m.indexlist.row_start.length (i + 1)
    exact hprslen
  · rw [hpushm]

theorem ilinv_values_update {m : SparseMatIndexList} (h : ILInv m)
    {vals : List ℚ} (hlen : vals.length = m.values.length) :
    ILInv { m with values := vals } := by
  refine ⟨h.hrwf, ?_, h.len_il, h.htrack, h.keysNodup, h.empty_rows, h.empty_cols⟩
  simp only
  rw [hlen, h.len_cv]

theorem ilinv_applyOp {m : SparseMatIndexList} (h : ILInv m) (op : MatOp) :
    ILInv (applyOpIL m op) := by
  have hmut : ∀ i j, ILInv (m.getMutIdx i j).1 ∧
      (m.getMutIdx i j).2 < (m.getMutIdx i j).1.values.length := by
    intro i j
    unfold SparseMatIndexList.getMutIdx
    rcases hf : m.find_index i j with _ | idx
    · obtain ⟨hinv, _, hcols, hvals, _, _⟩ := ilinv_push h i j 0 hf
      obtain ⟨_, _, hpidx, _, _⟩ := rwf_push h.hrwf i
      refine ⟨hinv, ?_⟩
      have h1 : (m.push i j 0).2 = (m.indexlist.push i).2 := by
        unfold SparseMatIndexList.push
        simp only
        split <;> rfl
      rw [h1, hpidx, h.len_il, hvals, List.length_append, h.len_cv]
      simp
    · refine ⟨h, ?_⟩
      simp only
      unfold SparseMatIndexList.find_index at hf
      split at hf
      · have hmem := List.find?_some hf
        have hmem2 := List.mem_of_find?_eq_some hf
        have := h.slots_lt i idx hmem2
        rw [h.len_cv]
        exact this
      · cases hf
  cases op with
  | set i j v =>
    obtain ⟨hinv, hlt⟩ := hmut i j
    exact ilinv_values_update hinv (by simp)
  | addTo i j v =>
    obtain ⟨hinv, hlt⟩ := hmut i j
    exact ilinv_values_update hinv (by simp)
  | getMut i j => exact (hmut i j).1
  | scale c =>
    exact ilinv_values_update h (by simp)

theorem ilinv_applyOps (ops : List MatOp) : ILInv (applyOpsIL ops) := by
  unfold applyOpsIL
  have hgen : ∀ (l : List MatOp) (m : SparseMatIndexList), ILInv m →
      ILInv (l.foldl applyOpIL m) := by
    intro l
    induction l with
    | nil => intro m hm; exact hm
    | cons op t ih =>
      intro m hm
      exact ih _ (ilinv_applyOp hm op)
  exact hgen ops _ ilinv_new

/-- The value of the first entry with column `j` in a row's `(col, val)` list,
or zero — what a linear-scan `get` returns on that row. -/
def firstMatch (l : List (Nat × ℚ)) (j : Nat) : ℚ :=
  match l.find? (fun cv => cv.1 = j) with
  | some cv => cv.2
  | none => 0

/-- The flat column array of the first `i` rows, as the conversion builds it. -/
def colsUpTo (f : Nat → List (Nat × ℚ)) (i : Nat) : List Nat :=
  (((List.range i).map f).map (List.map Prod.fst)).flatten

/-- The flat value array of the first `i` rows, as the conversion builds it. -/
def valsUpTo (f : Nat → List (Nat × ℚ)) (i : Nat) : List ℚ :=
  (((List.range i).map f).map (List.map Prod.snd)).flatten

theorem colsUpTo_succ (f : Nat → List (Nat × ℚ)) (i : Nat) :
    colsUpTo f (i + 1) = colsUpTo f i ++ (f i).map Prod.fst := by
  unfold colsUpTo
  rw [List.range_succ, List.map_append, List.map_append, List.flatten_append]
  simp

theorem valsUpTo_succ (f : Nat → List (Nat × ℚ)) (i : Nat) :
    valsUpTo f (i + 1) = valsUpTo f i ++ (f i).map Prod.snd := by
  unfold valsUpTo
  rw [List.range_succ, List.map_append, List.map_append, List.flatten_append]
  simp

theorem upTo_ge (f : Nat → List (Nat × ℚ)) {i n : Nat} (h : i ≤ n) :
    ∃ Rc Rv, colsUpTo f n = colsUpTo f i ++ Rc ∧ valsUpTo f n = valsUpTo f i ++ Rv := by
  induction n with
  | zero =>
    have : i = 0 := Nat.le_zero.mp h
    subst this
    exact ⟨[], [], by simp, by simp⟩
  | succ k ih =>
    rcases Nat.lt_or_ge i (k + 1) with hik | hik
    · obtain ⟨Rc, Rv, hc, hv⟩ := ih (by omega)
      exact ⟨Rc ++ (f k).map Prod.fst, Rv ++ (f k).map Prod.snd,
        by rw [colsUpTo_succ, hc, List.append_assoc],
        by rw [valsUpTo_succ, hv, List.append_assoc]⟩
    · have : i = k + 1 := by omega
      subst this
      exact ⟨[], [], by simp, by simp⟩

theorem upTo_length_mono (f : Nat → List (Nat × ℚ)) {i n : Nat} (h : i ≤ n) :
    (colsUpTo f i).length ≤ (colsUpTo f n).length := by
  obtain ⟨Rc, _, hc, _⟩ := upTo_ge f h
  rw [hc]
  simp

theorem convFoldSpec (f : Nat → List (Nat × ℚ)) (n : Nat) :
    (List.range n).foldl
      (fun (acc : List ℚ × List Nat × List Nat) i =>
        (acc.1 ++ (f i).map Prod.snd, acc.2.1 ++ (f i).map Prod.fst,
         acc.2.2 ++ [acc.2.1.length])) ([], [], [])
    = (valsUpTo f n, colsUpTo f n,
       (List.range n).map (fun i => (colsUpTo f i).length)) := by
  induction n with
  | zero => rfl
  | succ k ih =>
    rw [List.range_succ, List.foldl_concat, ih]
    simp only
    rw [← valsUpTo_succ, ← colsUpTo_succ, List.map_append]
    simp

theorem getD_map_range {g : Nat → Nat} {n k : Nat} (h : k < n) :
    ((List.range n).map g).getD k 0 = g k := by
  rw [List.getD_eq_getElem?_getD, List.getElem?_map, List.getElem?_range h]
  rfl

theorem find?_congr_mem {α : Type} {l : List α} {p q : α → Bool}
    (h : ∀ a ∈ l, p a = q a) : l.find? p = l.find? q := by
  induction l with
  | nil => rfl
  | cons a t ih =>
    rw [List.find?_cons, List.find?_cons, h a (List.mem_cons_self a t)]
    split
    · rfl
    · exact ih (fun b hb => h b (List.mem_cons_of_mem a hb))

/-- The linear scan of a CRS row slice, expressed on the zipped slice: the
scan over flat offsets `[start, start+len)` against the column array returns
the value paired with the first matching column of the slice. -/
theorem findSliceEq (cols : List Nat) (vals : List ℚ) (j : Nat) :
    ∀ (len start : Nat), start + len ≤ cols.length → cols.length = vals.length →
    (match (List.range' start len).find? (fun idx => cols.getD idx (j + 1) = j) with
     | some idx => vals.getD idx 0
     | none => 0)
    = firstMatch (List.zip ((cols.drop start).take len) ((vals.drop start).take len)) j := by
  intro len
  induction len with
  | zero =>
    intro start _ _
    simp [firstMatch]
  | succ k ih =>
    intro start hle hlen
    have hs : start < cols.length := by omega
    have hsv : start < vals.length := by omega
    have hgc : cols.getD start (j + 1) = cols[start] := by
      rw [List.getD_eq_getElem?_getD, List.getElem?_eq_getElem hs]
      rfl
    have hgv : vals.getD start 0 = vals[start] := by
      rw [List.getD_eq_getElem?_getD, List.getElem?_eq_getElem hsv]
      rfl
    rw [List.range'_succ, List.drop_eq_getElem_cons hs, List.drop_eq_getElem_cons hsv]
    simp only [List.take_succ_cons, List.zip_cons_cons]
    unfold firstMatch
    rw [List.find?_cons, List.find?_cons]
    by_cases hcj : cols[start] = j
    · have d1 : (decide (cols.getD start (j + 1) = j)) = true := by
        rw [hgc]
        simpa using hcj
      have d2 : (decide ((cols[start], vals[start]).1 = j)) = true := by
        simpa using hcj
      rw [d1, d2]
      simpa using hgv
    · have d1 : (decide (cols.getD start (j + 1) = j)) = false := by
        rw [hgc]
        simpa using hcj
      have d2 : (decide ((cols[start], vals[start]).1 = j)) = false := by
        simpa using hcj
      rw [d1, d2]
      have hih := ih (start + 1) (by omega) hlen
      unfold firstMatch at hih
      simpa using hih

theorem upTo_length_eq (f : Nat → List (Nat × ℚ)) (k : Nat) :
    (valsUpTo f k).length = (colsUpTo f k).length := by
  induction k with
  | zero => rfl
  | succ i ih =>
    rw [colsUpTo_succ, valsUpTo_succ]
    simp [ih]

theorem map_range_getD {α : Type} (L : List α) (d : α) :
    (List.range L.length).map (fun i => L.getD i d) = L := by
  apply List.ext_getElem
  · simp
  · intro k h1 h2
    simp only [List.getElem_map, List.getElem_range]
    rw [List.getD_eq_getElem?_getD, List.getElem?_eq_getElem h2]
    rfl

theorem il_get_eq_firstMatch {m : SparseMatIndexList} (h : ILInv m) (i j : Nat) :
    m.get i j = firstMatch (m.iter_row i) j := by
  rcases Nat.lt_or_ge i m.n_rows with hi | hi
  · have hfi : m.find_index i j
        = (m.indexlist.iterRow i).find?
            (fun idx => decide (m.columns.getD idx (j + 1) = j)) := by
      unfold SparseMatIndexList.find_index
      rw [if_pos hi]
    have hfm : (m.iter_row i).find? (fun cv => decide (cv.1 = j))
        = Option.map (fun idx => (m.columns.getD idx 0, m.values.getD idx 0))
            ((m.indexlist.iterRow i).find?
              (fun idx => decide (m.columns.getD idx (j + 1) = j))) := by
      unfold SparseMatIndexList.iter_row
      rw [List.find?_map]
      congr 1
      apply find?_congr_mem
      intro s hs
      have hlt := h.slots_lt i s hs
      show decide (m.columns.getD s 0 = j) = decide (m.columns.getD s (j + 1) = j)
      rw [getD_eq_getD_of_lt hlt 0 (j + 1)]
    unfold SparseMatIndexList.get firstMatch
    rw [hfi, hfm]
    rcases hres : (m.indexlist.iterRow i).find?
        (fun idx => decide (m.columns.getD idx (j + 1) = j)) with _ | s
    · rfl
    · rfl
  · have hf : m.find_index i j = none := by
      unfold SparseMatIndexList.find_index
      rw [if_neg (Nat.not_lt.mpr hi)]
    have hr : m.iter_row i = [] := by
      unfold SparseMatIndexList.iter_row
      rw [iterRow_out_of_range hi]
      rfl
    unfold SparseMatIndexList.get
    rw [hf, hr]
    rfl

theorem conv_fields {m : SparseMatIndexList} (hnnz : 0 < m.n_non_zero_entries) :
    (SparseMatCRS.from_sparsemat_index m).values = valsUpTo m.iter_row m.n_rows
    ∧ (SparseMatCRS.from_sparsemat_index m).columns = colsUpTo m.iter_row m.n_rows
    ∧ (SparseMatCRS.from_sparsemat_index m).offset_rows
        = ((List.range m.n_rows).map (fun i => (colsUpTo m.iter_row i).length))
          ++ [(colsUpTo m.iter_row m.n_rows).length]
    ∧ (SparseMatCRS.from_sparsemat_index m).n_rows = m.n_rows
    ∧ (SparseMatCRS.from_sparsemat_index m).n_cols = m.n_cols := by
  unfold SparseMatCRS.from_sparsemat_index
  rw [if_pos hnnz]
  simp only [convFoldSpec m.iter_row m.n_rows]
  simp

theorem conv_slice {f : Nat → List (Nat × ℚ)} {i n : Nat} (hin : i < n) :
    ((colsUpTo f n).drop (colsUpTo f i).length).take
        ((colsUpTo f (i + 1)).length - (colsUpTo f i).length) = (f i).map Prod.fst
    ∧ ((valsUpTo f n).drop (colsUpTo f i).length).take
        ((colsUpTo f (i + 1)).length - (colsUpTo f i).length) = (f i).map Prod.snd := by
  obtain ⟨Rc, Rv, hcx, hvx⟩ := upTo_ge f (show i + 1 ≤ n by omega)
  rw [colsUpTo_succ] at hcx
  rw [valsUpTo_succ] at hvx
  have hdiff : (colsUpTo f (i + 1)).length - (colsUpTo f i).length
      = ((f i).map Prod.fst).length := by
    rw [colsUpTo_succ, List.length_append]
    omega
  have hvl : (valsUpTo f i).length = (colsUpTo f i).length := upTo_length_eq f i
  constructor
  · rw [hcx, List.append_assoc, List.drop_left, hdiff, List.take_left]
  · have hd : (valsUpTo f n).drop (colsUpTo f i).length
        = List.map Prod.snd (f i) ++ Rv := by
      rw [hvx, List.append_assoc, ← hvl, List.drop_left]
    rw [hd, hdiff]
    have h2 : ((f i).map Prod.fst).length = ((f i).map Prod.snd).length := by simp
    rw [h2, List.take_left]

theorem conv_get {m : SparseMatIndexList} (h : ILInv m) (i j : Nat) :
    (SparseMatCRS.from_sparsemat_index m).get i j = m.get i j := by
  rcases Nat.eq_zero_or_pos m.n_non_zero_entries with hz | hnnz
  · have hcols : m.columns = [] := List.eq_nil_of_length_eq_zero hz
    have hnr : m.n_rows = 0 := by
      show m.indexlist.row_start.length = 0
      rw [h.empty_rows hcols]
      rfl
    have hcz : SparseMatCRS.from_sparsemat_index m = SparseMatCRS.new := by
      unfold SparseMatCRS.from_sparsemat_index
      rw [if_neg (by omega)]
    rw [hcz]
    have h1 : SparseMatCRS.new.get i j = 0 := rfl
    have h2 : m.get i j = 0 := by
      unfold SparseMatIndexList.get SparseMatIndexList.find_index
      rw [if_neg (by omega)]
    rw [h1, h2]
  · obtain ⟨hv, hc, ho, hr, _⟩ := conv_fields hnnz
    set c := SparseMatCRS.from_sparsemat_index m with hcdef
    rcases Nat.lt_or_ge i m.n_rows with hi | hi
    · have hGi : c.offset_rows.getD i 0 = (colsUpTo m.iter_row i).length := by
        rw [ho, List.getD_append _ _ _ _ (by simp; omega), getD_map_range (by omega)]
      have hGi1 : c.offset_rows.getD (i + 1) 0
          = (colsUpTo m.iter_row (i + 1)).length := by
        rcases Nat.lt_or_ge (i + 1) m.n_rows with hi1 | hi1
        · rw [ho, List.getD_append _ _ _ _ (by simp; omega), getD_map_range (by omega)]
        · have hieq : i + 1 = m.n_rows := by omega
          rw [ho, List.getD_eq_getElem?_getD, List.getElem?_append_right (by simp; omega)]
          simp only [List.length_map, List.length_range]
          rw [hieq]
          simp
      have hfind : c.get i j = firstMatch (m.iter_row i) j := by
        unfold SparseMatCRS.get SparseMatCRS.find_index
        rw [hGi, hGi1, hc, hv, if_pos (by omega)]
        have hmono1 : (colsUpTo m.iter_row i).length
            ≤ (colsUpTo m.iter_row (i + 1)).length :=
          upTo_length_mono m.iter_row (by omega)
        have hmono2 : (colsUpTo m.iter_row (i + 1)).length
            ≤ (colsUpTo m.iter_row m.n_rows).length :=
          upTo_length_mono m.iter_row (by omega)
        rw [findSliceEq (colsUpTo m.iter_row m.n_rows) (valsUpTo m.iter_row m.n_rows) j
          ((colsUpTo m.iter_row (i + 1)).length - (colsUpTo m.iter_row i).length)
          ((colsUpTo m.iter_row i).length) (by omega) (upTo_length_eq m.iter_row m.n_rows).symm]
        obtain ⟨hsc, hsv⟩ := conv_slice hi
        rw [hsc, hsv, List.zip_map']
        have : (m.iter_row i).map (fun a => (a.1, a.2)) = m.iter_row i := by
          simp
        rw [this]
      rw [hfind, il_get_eq_firstMatch h i j]
    · have h1 : c.get i j = 0 := by
        unfold SparseMatCRS.get SparseMatCRS.find_index
        rw [if_neg (by omega)]
      have h2 : m.get i j = 0 := by
        unfold SparseMatIndexList.get SparseMatIndexList.find_index
        rw [if_neg (by omega)]
      rw [h1, h2]

theorem conv_counts {m : SparseMatIndexList} (h : ILInv m) :
    (SparseMatCRS.from_sparsemat_index m).n_rows = m.n_rows
    ∧ (SparseMatCRS.from_sparsemat_index m).n_cols = m.n_cols
    ∧ (SparseMatCRS.from_sparsemat_index m).n_non_zero_entries
        = m.n_non_zero_entries := by
  rcases Nat.eq_zero_or_pos m.n_non_zero_entries with hz | hnnz
  · have hcols : m.columns = [] := List.eq_nil_of_length_eq_zero hz
    have hnr : m.n_rows = 0 := by
      show m.indexlist.row_start.length = 0
      rw [h.empty_rows hcols]
      rfl
    have hcz : SparseMatCRS.from_sparsemat_index m = SparseMatCRS.new := by
      unfold SparseMatCRS.from_sparsemat_index
      rw [if_neg (by omega)]
    rw [hcz, hnr, h.empty_cols hcols]
    refine ⟨rfl, rfl, ?_⟩
    show ([] : List Nat).length = m.columns.length
    rw [hcols]
  · obtain ⟨hv, hc, ho, hr, hcl⟩ := conv_fields hnnz
    refine ⟨hr, hcl, ?_⟩
    show (SparseMatCRS.from_sparsemat_index m).columns.length = m.columns.length
    rw [hc]
    obtain ⟨ch, hchlen, hch, hperm⟩ := h.hrwf
    have hiter : ∀ i, m.indexlist.iterRow i = ch.getD i [] := iterRow_eq_block hch hperm
    have hrowlen : ∀ i, (m.iter_row i).length = (ch.getD i []).length := by
      intro i
      unfold SparseMatIndexList.iter_row
      rw [hiter i]
      simp
    have hlen : (colsUpTo m.iter_row m.n_rows).length
        = (((List.range m.n_rows).map (fun i => (ch.getD i []).length)).sum) := by
      unfold colsUpTo
      rw [List.length_flatten]
      rw [List.map_map, List.map_map]
      congr 1
      apply List.map_congr_left
      intro i _
      simp only [Function.comp]
      rw [List.length_map]
      exact hrowlen i
    rw [hlen]
    have hn : m.n_rows = ch.length := by
      show m.indexlist.row_start.length = ch.length
      omega
    rw [hn]
    have hmr : (List.range ch.length).map (fun i => (ch.getD i []).length)
        = ch.map List.length := by
      have := map_range_getD ch ([] : List Nat)
      calc (List.range ch.length).map (fun i => (ch.getD i []).length)
          = ((List.range ch.length).map (fun i => ch.getD i [])).map List.length := by
            rw [List.map_map]
            rfl
        _ = ch.map List.length := by rw [this]
    rw [hmr, ← List.length_flatten, hperm.length_eq, List.length_range]
    exact h.len_il

theorem il_total_entries {m : SparseMatIndexList} (h : ILInv m) :
    ((List.range m.n_rows).map (fun i => (m.iter_row i).length)).sum
      = m.columns.length := by
  obtain ⟨ch, hchlen, hch, hperm⟩ := h.hrwf
  have hiter : ∀ i, m.indexlist.iterRow i = ch.getD i [] := iterRow_eq_block hch hperm
  have hrowlen : ∀ i, (m.iter_row i).length = (ch.getD i []).length := by
    intro i
    unfold SparseMatIndexList.iter_row
    rw [hiter i]
    simp
  have hmc : (List.range m.n_rows).map (fun i => (m.iter_row i).length)
      = (List.range m.n_rows).map (fun i => (ch.getD i []).length) :=
    List.map_congr_left (fun i _ => hrowlen i)
  rw [hmc]
  have hn : m.n_rows = ch.length := by
    show m.indexlist.row_start.length = ch.length
    omega
  rw [hn]
  have hmr : (List.range ch.length).map (fun i => (ch.getD i []).length)
      = ch.map List.length := by
    calc (List.range ch.length).map (fun i => (ch.getD i []).length)
        = ((List.range ch.length).map (fun i => ch.getD i [])).map List.length := by
          rw [List.map_map]
          rfl
      _ = ch.map List.length := by rw [map_range_getD ch ([] : List Nat)]
  rw [hmr, ← List.length_flatten, hperm.length_eq, List.length_range]
  exact h.len_il

theorem il_entries_facts {m : SparseMatIndexList} (h : ILInv m) :
    m.n_non_zero_entries = m.rowEntries.length
    ∧ (m.rowEntries.map (fun e => (e.1, e.2.1))).Nodup := by
  constructor
  · unfold SparseMatIndexList.rowEntries SparseMatIndexList.n_non_zero_entries
    rw [List.length_flatten, List.map_map]
    rw [← il_total_entries h]
    congr 1
    apply List.map_congr_left
    intro i _
    simp [Function.comp]
  · unfold SparseMatIndexList.rowEntries
    rw [List.map_flatten, List.map_map]
    rw [List.nodup_flatten]
    constructor
    · intro l hl
      obtain ⟨i, _, hleq⟩ := List.mem_map.mp hl
      rw [← hleq]
      simp only [Function.comp]
      rw [List.map_map]
      have hkeys := h.keysNodup i
      have hfun : (m.iter_row i).map ((fun e => (e.1, e.2.1)) ∘ fun cv => (i, cv.1, cv.2))
          = (m.iter_row i).map (fun cv : Nat × ℚ => (i, cv.1)) :=
        List.map_congr_left (fun cv _ => rfl)
      rw [hfun]
      have hcolmap : (m.iter_row i).map (fun cv : Nat × ℚ => (i, cv.1))
          = ((m.iter_row i).map (fun cv => cv.1)).map (fun c => (i, c)) := by
        rw [List.map_map]
        rfl
      rw [hcolmap]
      refine List.Nodup.map (fun a b hab => ?_) ?_
      · simpa using hab
      · have : (m.iter_row i).map (fun cv => cv.1)
            = (m.indexlist.iterRow i).map (fun s => m.columns.getD s 0) := by
          unfold SparseMatIndexList.iter_row
          rw [List.map_map]
          rfl
        rw [this]
        exact hkeys
    · rw [List.pairwise_map]
      have := List.pairwise_lt_range m.n_rows
      refine List.Pairwise.imp ?_ this
      intro a b hab
      intro x hxa hxb
      simp only [Function.comp] at hxa hxb
      rw [List.map_map] at hxa hxb
      obtain ⟨cva, _, hxaeq⟩ := List.mem_map.mp hxa
      obtain ⟨cvb, _, hxbeq⟩ := List.mem_map.mp hxb
      have hfa : x.1 = a := by
        rw [← hxaeq]
        rfl
      have hfb : x.1 = b := by
        rw [← hxbeq]
        rfl
      omega

/-- Generic version of `vecResize_getD_none`: a growing resize whose filler is
the read default does not change any `getD` read. -/
theorem vecResize_getD_default {α : Type} {l : List α} {n : Nat} {d : α}
    (h : l.length ≤ n) : ∀ i, (vecResize l n d).getD i d = l.getD i d := by
  intro i
  unfold vecResize
  rcases Nat.lt_or_ge i l.length with hi | hi
  · split
    · have : n = l.length := Nat.le_antisymm (by assumption) h
      rw [this, List.take_length]
    · exact List.getD_append _ _ _ _ hi
  · have hr : l.getD i d = d := List.getD_eq_default _ _ hi
    rw [hr]
    split
    · refine List.getD_eq_default _ _ ?_
      simp only [List.length_take]
      omega
    · rw [List.getD_eq_getElem?_getD, List.getElem?_append_right hi]
      rcases Nat.lt_or_ge (i - l.length) (n - l.length) with hlt | hge
      · simp [List.getElem?_replicate, hlt]
      · simp [List.getElem?_replicate, Nat.not_lt.mpr hge]

/-- The entries exposed by iterating every row of a row-of-arrays matrix in
order (the payload of `iter_row` for each existing row). -/
def SparseMatRowVec.rowEntries (m : SparseMatRowVec) : List (Nat × Nat × ℚ) :=
  ((List.range m.n_rows).map
    (fun i => (List.zip (m.columns.getD i []) (m.values.getD i [])).map
      (fun cv => (i, cv.1, cv.2)))).flatten

/-- Well-formedness of a row-of-arrays matrix, as established by any sequence
of public operations: the two row tables have the same shape, the `nnz`
counter counts the stored entries, and each row's columns are distinct. -/
structure RVInv (m : SparseMatRowVec) : Prop where
  len_cv : m.values.length = m.columns.length
  len_rows : ∀ i, (m.values.getD i []).length = (m.columns.getD i []).length
  nnz_eq : m.nnz = (m.columns.map List.length).sum
  keysNodup : ∀ i, (m.columns.getD i []).Nodup

theorem rvinv_new : RVInv SparseMatRowVec.new := by
  refine ⟨rfl, fun i => ?_, rfl, fun i => ?_⟩
  · cases i <;> rfl
  · show (([] : List (List Nat)).getD i []).Nodup
    cases i <;> exact List.nodup_nil

theorem sum_map_length_set (L : List (List Nat)) (i : Nat) (v : List Nat)
    (hi : i < L.length) :
    ((L.set i v).map List.length).sum + (L.getD i []).length
      = (L.map List.length).sum + v.length := by
  induction L generalizing i with
  | nil => cases hi
  | cons a t ih =>
    cases i with
    | zero =>
      simp only [List.set_cons_zero, List.map_cons, List.sum_cons,
        List.getD_cons_zero]
      omega
    | succ k =>
      have hk : k < t.length := by simpa using hi
      have := ih k hk
      simp only [List.set_cons_succ, List.map_cons, List.sum_cons,
        List.getD_cons_succ]
      omega

theorem rvinv_push_aux {m : SparseMatRowVec} (h : RVInv m)
    {C : List (List Nat)} {V : List (List ℚ)} {i j : Nat} {v : ℚ}
    (hres : (m.push i j v).1 =
      { n_cols := max m.n_cols (j + 1), nnz := m.nnz + 1,
        columns := C.set i (C.getD i [] ++ [j]),
        values := V.set i (V.getD i [] ++ [v]) })
    (hCget : ∀ r, C.getD r [] = m.columns.getD r [])
    (hVget : ∀ r, V.getD r [] = m.values.getD r [])
    (hClen : C.length = max m.columns.length (i + 1))
    (hVlen : V.length = C.length)
    (hsum : (C.map List.length).sum = (m.columns.map List.length).sum)
    (hjnot : j ∉ m.columns.getD i []) :
    RVInv (m.push i j v).1
    ∧ (m.push i j v).1.columns.getD i [] = m.columns.getD i [] ++ [j]
    ∧ (m.push i j v).1.values.getD i [] = m.values.getD i [] ++ [v]
    ∧ (∀ r, r ≠ i → (m.push i j v).1.columns.getD r [] = m.columns.getD r []
        ∧ (m.push i j v).1.values.getD r [] = m.values.getD r [])
    ∧ (m.push i j v).1.n_rows = max m.n_rows (i + 1)
    ∧ (m.push i j v).1.nnz = m.nnz + 1
    ∧ (m.push i j v).1.n_cols = max m.n_cols (j + 1) := by
  have hilt : i < C.length := by omega
  have hilv : i < V.length := by omega
  refine ⟨⟨?_, ?_, ?_, ?_⟩, ?_, ?_, ?_, ?_, ?_, ?_⟩
  · rw [hres]
    simp only [List.length_set]
    omega
  · intro r
    rw [hres]
    simp only
    rcases eq_or_ne r i with rfl | hne
    · rw [getD_set_self hilt, getD_set_self hilv]
      simp only [List.length_append]
      rw [hCget, hVget, h.len_rows r]
      simp
    · rw [getD_set_ne (fun he => hne he.symm), getD_set_ne (fun he => hne he.symm),
        hCget, hVget]
      exact h.len_rows r
  · rw [hres]
    simp only
    have hset := sum_map_length_set C i ((C.getD i []) ++ [j]) hilt
    simp only [List.length_append, List.length_singleton] at hset
    rw [h.nnz_eq, ← hsum]
    omega
  · intro r
    rw [hres]
    simp only
    rcases eq_or_ne r i with rfl | hne
    · rw [getD_set_self hilt, hCget]
      refine List.Nodup.append (h.keysNodup r) (List.nodup_singleton j) ?_
      intro a ha hb
      rw [List.mem_singleton] at hb
      exact hjnot (hb ▸ ha)
    · rw [getD_set_ne (fun he => hne he.symm), hCget]
      exact h.keysNodup r
  · rw [hres]
    simp only
    rw [getD_set_self hilt, hCget]
  · rw [hres]
    simp only
    rw [getD_set_self hilv, hVget]
  · intro r hne
    rw [hres]
    simp only
    rw [getD_set_ne (fun he => hne he.symm), getD_set_ne (fun he => hne he.symm),
      hCget, hVget]
    exact ⟨rfl, rfl⟩
  · rw [hres]
    show (C.set i ((C.getD i []) ++ [j])).length = max m.n_rows (i + 1)
    simp only [List.length_set]
    have hnr : m.n_rows = m.columns.length := rfl
    omega
  · rw [hres]
  · rw [hres]

theorem rvinv_push {m : SparseMatRowVec} (h : RVInv m) (i j : Nat) (v : ℚ)
    (hfind : m.find_index i j = none) :
    RVInv (m.push i j v).1
    ∧ (m.push i j v).1.columns.getD i [] = m.columns.getD i [] ++ [j]
    ∧ (m.push i j v).1.values.getD i [] = m.values.getD i [] ++ [v]
    ∧ (∀ r, r ≠ i → (m.push i j v).1.columns.getD r [] = m.columns.getD r []
        ∧ (m.push i j v).1.values.getD r [] = m.values.getD r [])
    ∧ (m.push i j v).1.n_rows = max m.n_rows (i + 1)
    ∧ (m.push i j v).1.nnz = m.nnz + 1
    ∧ (m.push i j v).1.n_cols = max m.n_cols (j + 1) := by
  have hnr : m.n_rows = m.columns.length := rfl
  have hnv : m.values.length = m.columns.length := h.len_cv
  have hjnot : j ∉ m.columns.getD i [] := by
    intro hmem
    unfold SparseMatRowVec.find_index at hfind
    rcases Nat.lt_or_ge i m.n_rows with hi | hi
    · rw [if_pos hi] at hfind
      have := List.findIdx?_eq_none_iff.mp hfind j hmem
      simp at this
    · have hrow : m.columns.getD i [] = [] :=
        List.getD_eq_default _ _ (by omega)
      rw [hrow] at hmem
      cases hmem
  have hgen : ∀ m1 : SparseMatRowVec,
      (if m1.n_cols ≤ j then { m1 with n_cols := j + 1 } else m1)
      = { m1 with n_cols := max m1.n_cols (j + 1) } := by
    intro m1
    split
    · have hm : max m1.n_cols (j + 1) = j + 1 := by omega
      rw [hm]
    · have hm : max m1.n_cols (j + 1) = m1.n_cols := by omega
      rw [hm]
  by_cases hcase : m.n_rows ≤ i
  case neg =>
    have hres : (m.push i j v).1 =
        { n_cols := max m.n_cols (j + 1), nnz := m.nnz + 1,
          columns := m.columns.set i ((m.columns.getD i []) ++ [j]),
          values := m.values.set i ((m.values.getD i []) ++ [v]) } := by
      unfold SparseMatRowVec.push
      simp only [if_neg hcase]
      by_cases hc2 : m.n_cols ≤ j
      · have hm : max m.n_cols (j + 1) = j + 1 := by omega
        simp only [if_pos hc2, hm]
      · have hm : max m.n_cols (j + 1) = m.n_cols := by omega
        simp only [if_neg hc2, hm]
    exact rvinv_push_aux h hres (fun r => rfl) (fun r => rfl)
      (by omega) (by omega) rfl hjnot
  case pos =>
    have hres : (m.push i j v).1 =
        { n_cols := max m.n_cols (j + 1), nnz := m.nnz + 1,
          columns := (vecResize m.columns (i + 1) []).set i
            (((vecResize m.columns (i + 1) []).getD i []) ++ [j]),
          values := (vecResize m.values (i + 1) []).set i
            (((vecResize m.values (i + 1) []).getD i []) ++ [v]) } := by
      unfold SparseMatRowVec.push
      simp only [if_pos hcase]
      by_cases hc2 : m.n_cols ≤ j
      · have hm : max m.n_cols (j + 1) = j + 1 := by omega
        simp only [if_pos hc2, hm]
      · have hm : max m.n_cols (j + 1) = m.n_cols := by omega
        simp only [if_neg hc2, hm]
    have hsum : ((vecResize m.columns (i + 1) []).map List.length).sum
        = (m.columns.map List.length).sum := by
      unfold vecResize
      rw [if_neg (by omega), List.map_append, List.sum_append]
      have hz : (List.replicate (i + 1 - m.columns.length) ([] : List Nat)).map
          List.length = List.replicate (i + 1 - m.columns.length) 0 := by
        simp
      rw [hz]
      simp
    exact rvinv_push_aux h hres
      (vecResize_getD_default (by omega))
      (vecResize_getD_default (by omega))
      (by rw [vecResize_length]; omega)
      (by rw [vecResize_length, vecResize_length])
      hsum hjnot

theorem rvinv_values_row_update {m : SparseMatRowVec} (h : RVInv m) {i : Nat}
    {row : List ℚ} (hi : i < m.values.length)
    (hlen : row.length = (m.values.getD i []).length) :
    RVInv { m with values := m.values.set i row } := by
  refine ⟨?_, ?_, h.nnz_eq, h.keysNodup⟩
  · simp only [List.length_set]
    exact h.len_cv
  · intro r
    simp only
    rcases eq_or_ne r i with rfl | hne
    · rw [getD_set_self hi, hlen]
      exact h.len_rows r
    · rw [getD_set_ne (fun he => hne he.symm)]
      exact h.len_rows r

theorem rvinv_applyOp {m : SparseMatRowVec} (h : RVInv m) (op : MatOp) :
    RVInv (applyOpRV m op) := by
  have hmut : ∀ i j, RVInv (m.getMutIdx i j).1 ∧
      i < (m.getMutIdx i j).1.values.length := by
    intro i j
    unfold SparseMatRowVec.getMutIdx
    rcases hf : m.find_index i j with _ | idx
    · obtain ⟨hinv, _, _, _, hrows, _, _⟩ := rvinv_push h i j 0 hf
      refine ⟨hinv, ?_⟩
      have : (m.push i j 0).1.values.length = (m.push i j 0).1.columns.length :=
        hinv.len_cv
      have hnr : (m.push i j 0).1.n_rows = (m.push i j 0).1.columns.length := rfl
      rw [this, ← hnr, hrows]
      omega
    · refine ⟨h, ?_⟩
      simp only
      unfold SparseMatRowVec.find_index at hf
      split at hf
      · rw [h.len_cv]
        show i < m.n_rows
        omega
      · cases hf
  cases op with
  | set i j v =>
    obtain ⟨hinv, hlt⟩ := hmut i j
    exact rvinv_values_row_update hinv hlt (by simp)
  | addTo i j v =>
    obtain ⟨hinv, hlt⟩ := hmut i j
    exact rvinv_values_row_update hinv hlt (by simp)
  | getMut i j => exact (hmut i j).1
  | scale c =>
    refine ⟨?_, ?_, h.nnz_eq, h.keysNodup⟩
    · show (m.values.map (fun row => row.map (fun x => x * c))).length
        = m.columns.length
      simp only [List.length_map]
      exact h.len_cv
    · intro r
      show ((m.values.map (fun row => row.map (fun x => x * c))).getD r []).length
        = (m.columns.getD r []).length
      rcases Nat.lt_or_ge r m.values.length with hr | hr
      · have : (m.values.map (fun row => row.map (fun x => x * c))).getD r []
            = (m.values.getD r []).map (fun x => x * c) := by
          rw [List.getD_eq_getElem (_) _ (by simpa using hr),
            List.getD_eq_getElem _ _ hr]
          simp
        rw [this]
        simp only [List.length_map]
        exact h.len_rows r
      · rw [List.getD_eq_default _ _ (by simpa using hr),
          List.getD_eq_default _ _ (show m.columns.length ≤ r by
            rw [← h.len_cv]; exact hr)]
        rfl

theorem rvinv_applyOps (ops : List MatOp) : RVInv (applyOpsRV ops) := by
  unfold applyOpsRV
  have hgen : ∀ (l : List MatOp) (m : SparseMatRowVec), RVInv m →
      RVInv (l.foldl applyOpRV m) := by
    intro l
    induction l with
    | nil => intro m hm; exact hm
    | cons op t ih =>
      intro m hm
      exact ih _ (rvinv_applyOp hm op)
  exact hgen ops _ rvinv_new

theorem rv_entries_facts {m : SparseMatRowVec} (h : RVInv m) :
    m.n_non_zero_entries = m.rowEntries.length
    ∧ (m.rowEntries.map (fun e => (e.1, e.2.1))).Nodup := by
  constructor
  · unfold SparseMatRowVec.rowEntries SparseMatRowVec.n_non_zero_entries
    rw [List.length_flatten, List.map_map, h.nnz_eq]
    have hzlen : ∀ i, i ∈ List.range m.n_rows →
        (List.length ∘ fun i => (List.zip (m.columns.getD i []) (m.values.getD i [])).map
          (fun cv => (i, cv.1, cv.2))) i = (m.columns.getD i []).length := by
      intro i _
      simp only [Function.comp, List.length_map, List.length_zip]
      rw [h.len_rows i]
      omega
    rw [List.map_congr_left hzlen]
    have hnr : m.n_rows = m.columns.length := rfl
    rw [hnr]
    have hmr : (List.range m.columns.length).map (fun i => (m.columns.getD i []).length)
        = m.columns.map List.length := by
      calc (List.range m.columns.length).map (fun i => (m.columns.getD i []).length)
          = ((List.range m.columns.length).map (fun i => m.columns.getD i [])).map
              List.length := by
            rw [List.map_map]
            rfl
        _ = m.columns.map List.length := by rw [map_range_getD m.columns ([] : List Nat)]
    rw [hmr]
  · unfold SparseMatRowVec.rowEntries
    rw [List.map_flatten, List.map_map, List.nodup_flatten]
    constructor
    · intro l hl
      obtain ⟨i, _, hleq⟩ := List.mem_map.mp hl
      rw [← hleq]
      simp only [Function.comp]
      rw [List.map_map]
      have hfun : (List.zip (m.columns.getD i []) (m.values.getD i [])).map
            ((fun e => (e.1, e.2.1)) ∘ fun cv => (i, cv.1, cv.2))
          = ((List.zip (m.columns.getD i []) (m.values.getD i [])).map
              (fun cv => cv.1)).map (fun c => (i, c)) := by
        rw [List.map_map]
        exact List.map_congr_left (fun cv _ => rfl)
      rw [hfun]
      refine List.Nodup.map (fun a b hab => ?_) ?_
      · simpa using hab
      · have hfst : (List.zip (m.columns.getD i []) (m.values.getD i [])).map
            (fun cv => cv.1) = m.columns.getD i [] := by
          have := List.map_fst_zip (m.columns.getD i []) (m.values.getD i [])
            (by rw [h.len_rows i])
          simpa using this
        rw [hfst]
        exact h.keysNodup i
    · rw [List.pairwise_map]
      refine List.Pairwise.imp ?_ (List.pairwise_lt_range m.n_rows)
      intro a b hab
      intro x hxa hxb
      simp only [Function.comp] at hxa hxb
      rw [List.map_map] at hxa hxb
      obtain ⟨cva, _, hxaeq⟩ := List.mem_map.mp hxa
      obtain ⟨cvb, _, hxbeq⟩ := List.mem_map.mp hxb
      have hfa : x.1 = a := by
        rw [← hxaeq]
        rfl
      have hfb : x.1 = b := by
        rw [← hxbeq]
        rfl
      omega

theorem insertIdx_drop {α : Type} (a : α) :
    ∀ (n : Nat) (l : List α), n ≤ l.length →
    (l.insertIdx n a).drop n = a :: l.drop n := by
  intro n
  induction n with
  | zero =>
    intro l _
    rw [List.insertIdx_zero]
    rfl
  | succ k ih =>
    intro l hl
    cases l with
    | nil => simp at hl
    | cons hd t =>
      rw [List.insertIdx_succ_cons]
      simp only [List.drop_succ_cons]
      exact ih t (by simpa using hl)

/-- Well-formedness of a compressed-row matrix: parallel arrays in lock-step,
an offset table with one entry per row plus the terminator, non-decreasing
offsets, and the terminator equal to the entry count.  The conversion from
the incremental format establishes this shape; the first `push` into a fresh
matrix violates it (it leaves `n_rows` at zero), which is precisely the
`n_rows` bug recorded at claims C1 and C9. -/
structure WFCRS (m : SparseMatCRS) : Prop where
  len_cv : m.values.length = m.columns.length
  len_off : m.offset_rows.length = m.n_rows + 1
  mono : List.Chain' (fun a b => a ≤ b) m.offset_rows
  off_last : m.offset_rows.getD m.n_rows 0 = m.columns.length

theorem wfcrs_getD_mono {m : SparseMatCRS} (h : WFCRS m) {a b : Nat}
    (hab : a ≤ b) (hb : b < m.offset_rows.length) :
    m.offset_rows.getD a 0 ≤ m.offset_rows.getD b 0 := by
  rcases Nat.eq_or_lt_of_le hab with rfl | hlt
  · exact Nat.le_refl _
  · have hpw := List.chain'_iff_pairwise.mp h.mono
    have := (List.pairwise_iff_getElem.mp hpw) a b (by omega) hb hlt
    rw [List.getD_eq_getElem _ _ (by omega), List.getD_eq_getElem _ _ hb]
    exact this

theorem wfcrs_getD_le_len {m : SparseMatCRS} (h : WFCRS m) {k : Nat}
    (hk : k ≤ m.n_rows) : m.offset_rows.getD k 0 ≤ m.columns.length := by
  rw [← h.off_last]
  exact wfcrs_getD_mono h hk (by rw [h.len_off]; omega)

theorem crs_iter_row_pos {m : SparseMatCRS} {row : Nat} (hrow : row < m.n_rows) :
    m.iter_row row = List.zip
      ((m.columns.drop (m.offset_rows.getD row 0)).take
        (m.offset_rows.getD (row + 1) 0 - m.offset_rows.getD row 0))
      ((m.values.drop (m.offset_rows.getD row 0)).take
        (m.offset_rows.getD (row + 1) 0 - m.offset_rows.getD row 0)) := by
  unfold SparseMatCRS.iter_row
  rw [if_pos hrow]

theorem crs_iter_row_neg {m : SparseMatCRS} {row : Nat} (hrow : m.n_rows ≤ row) :
    m.iter_row row = [] := by
  unfold SparseMatCRS.iter_row
  rw [if_neg (Nat.not_lt.mpr hrow)]

/-- The CRS engine creates a missing entry at the BEGINNING of its row:
`push` inserts at flat position `offset_rows[i]`, which is where row `i`
starts, so the row iterator afterwards yields the new entry first. -/
theorem crs_getMut_prepend {m : SparseMatCRS} (h : WFCRS m) {i j : Nat}
    (hfind : m.find_index i j = none) :
    (m.getMutIdx i j).1.iter_row i = (j, 0) :: m.iter_row i := by
  have hoff_ne : m.offset_rows.length ≠ 0 := by
    rw [h.len_off]
    omega
  unfold SparseMatCRS.getMutIdx
  rw [hfind]
  show (m.push i j 0).1.iter_row i = (j, 0) :: m.iter_row i
  set m1 := if m.n_cols ≤ j then { m with n_cols := j + 1 } else m with hm1
  have hm1_fields : m1.n_rows = m.n_rows ∧ m1.offset_rows = m.offset_rows
      ∧ m1.columns = m.columns ∧ m1.values = m.values := by
    rw [hm1]
    split
    · exact ⟨rfl, rfl, rfl, rfl⟩
    · exact ⟨rfl, rfl, rfl, rfl⟩
  obtain ⟨hf1, hf2, hf3, hf4⟩ := hm1_fields
  rcases Nat.lt_or_ge i m.n_rows with hi | hi
  · -- existing row: insert at the row's start offset
    set s := m1.offset_rows.getD i 0 with hs
    set e := m1.offset_rows.getD (i + 1) 0 with he
    have hpush : (m.push i j 0).1 =
        { m1 with columns := m1.columns.insertIdx s j,
                  values := m1.values.insertIdx s 0,
                  offset_rows := m1.offset_rows.mapIdx
                    (fun k v => if i + 1 ≤ k then v + 1 else v) } := by
      rw [hs]
      unfold SparseMatCRS.push
      rw [← hm1]
      dsimp only
      rw [if_neg (by rw [hf2]; exact hoff_ne), if_neg (by rw [hf1]; omega)]
    have hse : s ≤ e := by
      rw [hs, he, hf2]
      exact wfcrs_getD_mono h (by omega) (by rw [h.len_off]; omega)
    have hec : e ≤ m.columns.length := by
      rw [he, hf2]
      exact wfcrs_getD_le_len h (by omega)
    have hsc : s ≤ m.columns.length := by omega
    have hsv : s ≤ m.values.length := by rw [h.len_cv]; exact hsc
    have hoff_i : (m1.offset_rows.mapIdx
        (fun k v => if i + 1 ≤ k then v + 1 else v)).getD i 0 = s := by
      rw [hs, List.getD_eq_getElem?_getD, List.getElem?_mapIdx,
        List.getD_eq_getElem?_getD]
      rcases hx : m1.offset_rows[i]? with _ | val
      · rfl
      · simp only [Option.map_some']
        rw [if_neg (by omega)]
    have hoff_i1 : (m1.offset_rows.mapIdx
        (fun k v => if i + 1 ≤ k then v + 1 else v)).getD (i + 1) 0 = e + 1 := by
      have hlt : i + 1 < m1.offset_rows.length := by
        rw [hf2, h.len_off]
        omega
      rw [he, List.getD_eq_getElem?_getD, List.getElem?_mapIdx,
        List.getElem?_eq_getElem hlt]
      simp only [Option.map_some']
      rw [if_pos (by omega)]
      rw [List.getD_eq_getElem?_getD, List.getElem?_eq_getElem hlt]
      rfl
    have hrow : i < (m.push i j 0).1.n_rows := by
      rw [hpush]
      show i < m1.n_rows
      rw [hf1]
      exact hi
    have hcols : (m.push i j 0).1.columns = m1.columns.insertIdx s j := by
      rw [hpush]
    have hvals : (m.push i j 0).1.values = m1.values.insertIdx s 0 := by
      rw [hpush]
    have hoffs : (m.push i j 0).1.offset_rows = m1.offset_rows.mapIdx
        (fun k v => if i + 1 ≤ k then v + 1 else v) := by
      rw [hpush]
    rw [crs_iter_row_pos hrow, crs_iter_row_pos hi, hcols, hvals, hoffs]
    rw [hoff_i, hoff_i1, hf3, hf4]
    have hdropc : (m.columns.insertIdx s j).drop s = j :: m.columns.drop s :=
      insertIdx_drop j s m.columns hsc
    have hdropv : (m.values.insertIdx s 0).drop s = (0 : ℚ) :: m.values.drop s :=
      insertIdx_drop 0 s m.values hsv
    rw [hdropc, hdropv]
    have hlen1 : e + 1 - s = (e - s) + 1 := by omega
    rw [hlen1]
    simp only [List.take_succ_cons, List.zip_cons_cons]
    rw [hs, he, hf2]
  · -- new row: resize the offset table, then insert at the end
    have hlast : m.offset_rows.getD (m.offset_rows.length - 1) 0
        = m.columns.length := by
      rw [h.len_off]
      simp only [Nat.add_sub_cancel]
      exact h.off_last
    set off1 := vecResize m.offset_rows (i + 2) (m.offset_rows.getD
      (m.offset_rows.length - 1) 0) with hoff1
    have hoff1' : off1 = m.offset_rows ++ List.replicate (i + 2 - m.offset_rows.length)
        m.columns.length := by
      rw [hoff1, hlast]
      unfold vecResize
      rw [if_neg (by rw [h.len_off]; omega)]
    have hoff1_len : off1.length = i + 2 := by
      rw [hoff1, vecResize_length]
    have hoff1_i : off1.getD i 0 = m.columns.length := by
      rw [hoff1']
      rcases Nat.lt_or_ge i m.offset_rows.length with hl | hl
      · have hieq : i = m.n_rows := by
          rw [h.len_off] at hl
          omega
        rw [List.getD_append _ _ _ _ hl, hieq]
        exact h.off_last
      · rw [List.getD_eq_getElem?_getD, List.getElem?_append_right hl]
        rw [List.getElem?_replicate,
          if_pos (by rw [h.len_off]; rw [h.len_off] at hl; omega)]
        rfl
    have hoff1_i1 : off1.getD (i + 1) 0 = m.columns.length := by
      rw [hoff1']
      have hge : m.offset_rows.length ≤ i + 1 := by
        rw [h.len_off]
        omega
      rw [List.getD_eq_getElem?_getD, List.getElem?_append_right hge]
      rw [List.getElem?_replicate, if_pos (by rw [h.len_off]; omega)]
      rfl
    have hpush : (m.push i j 0).1 =
        { m1 with n_rows := i + 1,
                  columns := m1.columns.insertIdx m.columns.length j,
                  values := m1.values.insertIdx m.columns.length 0,
                  offset_rows := off1.mapIdx
                    (fun k v => if i + 1 ≤ k then v + 1 else v) } := by
      unfold SparseMatCRS.push
      rw [← hm1]
      dsimp only
      rw [if_neg (by rw [hf2]; exact hoff_ne), if_pos (by rw [hf1]; omega)]
      rw [hf2, ← hoff1]
      rw [show off1.getD i 0 = m.columns.length from hoff1_i]
    have hoff_i : (off1.mapIdx (fun k v => if i + 1 ≤ k then v + 1 else v)).getD i 0
        = m.columns.length := by
      rw [List.getD_eq_getElem?_getD, List.getElem?_mapIdx,
        List.getElem?_eq_getElem (show i < off1.length by rw [hoff1_len]; omega)]
      simp only [Option.map_some']
      rw [if_neg (by omega)]
      rw [show off1[i] = off1.getD i 0 from
        (List.getD_eq_getElem _ 0 (by rw [hoff1_len]; omega)).symm]
      exact hoff1_i
    have hoff_i1 : (off1.mapIdx (fun k v => if i + 1 ≤ k then v + 1 else v)).getD
        (i + 1) 0 = m.columns.length + 1 := by
      rw [List.getD_eq_getElem?_getD, List.getElem?_mapIdx,
        List.getElem?_eq_getElem (show i + 1 < off1.length by rw [hoff1_len]; omega)]
      simp only [Option.map_some']
      rw [if_pos (by omega)]
      have hx : off1[i + 1] = off1.getD (i + 1) 0 :=
        (List.getD_eq_getElem _ 0 (by rw [hoff1_len]; omega)).symm
      rw [hx, hoff1_i1]
      rfl
    have hrow : i < (m.push i j 0).1.n_rows := by
      rw [hpush]
      show i < i + 1
      omega
    have hcols : (m.push i j 0).1.columns
        = m1.columns.insertIdx m.columns.length j := by
      rw [hpush]
    have hvals : (m.push i j 0).1.values
        = m1.values.insertIdx m.columns.length 0 := by
      rw [hpush]
    have hoffs : (m.push i j 0).1.offset_rows = off1.mapIdx
        (fun k v => if i + 1 ≤ k then v + 1 else v) := by
      rw [hpush]
    rw [crs_iter_row_pos hrow, crs_iter_row_neg hi, hcols, hvals, hoffs]
    rw [hoff_i, hoff_i1, hf3, hf4]
    have hdropc : (m.columns.insertIdx m.columns.length j).drop m.columns.length
        = [j] := by
      rw [List.insertIdx_length_self, List.drop_left]
    have hdropv : (m.values.insertIdx m.columns.length 0).drop m.columns.length
        = [(0 : ℚ)] := by
      rw [show m.columns.length = m.values.length from h.len_cv.symm,
        List.insertIdx_length_self, List.drop_left]
    rw [hdropc, hdropv]
    have hone : m.columns.length + 1 - m.columns.length = 1 := by omega
    rw [hone]
    rfl

theorem foldlM_ne_error {α β : Type} {E : Err} (f : β → α → Except Err β)
    (hf : ∀ acc x, f acc x ≠ .error E) :
    ∀ (l : List α) (init : β), l.foldlM f init ≠ .error E := by
  intro l
  induction l with
  | nil =>
    intro init hcontra
    exact Except.noConfusion hcontra
  | cons x xs ih =>
    intro init
    cases hfx : f init x with
    | error e =>
      rw [List.foldlM_cons, hfx]
      intro hcontra
      exact hf init x (hfx.trans hcontra)
    | ok b =>
      rw [List.foldlM_cons, hfx]
      intro hcontra
      exact ih b hcontra

theorem except_bind_error {α β γ : Type} (e : γ) (f : α → Except γ β) :
    (Except.error e >>= f) = Except.error e := rfl

theorem except_bind_ok {α β γ : Type} (a : α) (f : α → Except γ β) :
    (Except.ok a >>= f) = f a := rfl

theorem iter_col_ne_dim (b : SparseMatCRS) (j : Nat) :
    b.iter_col j ≠ Except.error Err.dimensionMismatch := by
  unfold SparseMatCRS.iter_col
  split
  · intro hcontra
    exact Err.noConfusion (Except.error.inj hcontra)
  · split
    · intro hcontra
      exact Except.noConfusion hcontra
    · intro hcontra
      exact Err.noConfusion (Except.error.inj hcontra)

theorem crs_prod_body_ne_dim (a b : SparseMatCRS) (i : Nat)
    (ret : SparseMatCRS) (j : Nat) :
    (do
      let colEntries ← b.iter_col j
      let sum := colEntries.foldl
        (fun sum rv =>
          ((sortByCol (a.iter_row i)).takeWhile (fun cv => cv.1 ≤ rv.1)).foldl
            (fun s cv => if cv.1 = rv.1 then s + cv.2 * rv.2 else s) sum)
        0
      pure (if sum ≠ 0 then ret.set i j sum else ret))
      ≠ Except.error Err.dimensionMismatch := by
  intro hcontra
  cases hic : b.iter_col j with
  | error e =>
    rw [hic, except_bind_error] at hcontra
    exact iter_col_ne_dim b j (by rw [hic, Except.error.inj hcontra])
  | ok l =>
    rw [hic, except_bind_ok] at hcontra
    exact Except.noConfusion hcontra

/-- C4: the claim reads the product guard as exactly `n_cols(A) ≠ n_rows(B)`;
the code's guard (sparsematrix.rs line 119) is the disjunction
`n_rows(A) ≠ n_cols(B) || n_cols(A) ≠ n_rows(B)`, and the loop body can only
fail for column-iterator reasons, never with a dimension mismatch — so the
product reports "Dimension mismatch" iff either dimension pair disagrees. -/
theorem c4_prod_dimension_guard (a b : SparseMatCRS) :
    a.prod b = Except.error Err.dimensionMismatch
      ↔ a.n_rows ≠ b.n_cols ∨ a.n_cols ≠ b.n_rows := by
  unfold SparseMatCRS.prod
  by_cases hg : a.n_rows ≠ b.n_cols ∨ a.n_cols ≠ b.n_rows
  · rw [if_pos hg]
    exact ⟨fun _ => hg, fun _ => rfl⟩
  · rw [if_neg hg]
    constructor
    · intro hcontra
      exact absurd hcontra (foldlM_ne_error _
        (fun ret i => foldlM_ne_error _
          (fun r j => crs_prod_body_ne_dim a b i r j) _ _) _ _)
    · intro hgg
      exact absurd hgg hg

/-- C4 counterexample to the spec's wording: a 2-by-1 and a 1-by-1 matrix
have matching inner dimensions (`n_cols(A) = n_rows(B) = 1`), yet their
product still reports "Dimension mismatch", because the code's guard also
requires `n_rows(A) = n_cols(B)`. -/
theorem c4_prod_counterexample :
    (SparseMatCRS.from_sparsemat_index (applyOpsIL [.set 0 0 1, .set 1 0 1])).n_cols
        = (SparseMatCRS.from_sparsemat_index (applyOpsIL [.set 0 0 1])).n_rows
      ∧ (SparseMatCRS.from_sparsemat_index (applyOpsIL [.set 0 0 1, .set 1 0 1])).prod
          (SparseMatCRS.from_sparsemat_index (applyOpsIL [.set 0 0 1]))
        = Except.error Err.dimensionMismatch := by
  constructor
  · decide
  · rfl

theorem denseGet_ok {v : DenseVec} {i : Nat} (h : i < v.length) :
    denseGet v i = .ok (v.getD i 0) := by
  unfold denseGet
  rw [List.get?_eq_getElem?, List.getElem?_eq_getElem h,
    List.getD_eq_getElem v 0 h]

theorem denseSet_at_length {v : DenseVec} {i : Nat} (h : v.length = i) (s : ℚ) :
    denseSet v i s = v ++ [s] := by
  subst h
  unfold denseSet
  rw [if_pos (le_refl _)]
  simp [List.set_append]

theorem mvp_row_sum {v : DenseVec} {l : List (Nat × ℚ)}
    (hb : ∀ cv ∈ l, cv.1 < v.length) :
    ∀ s : ℚ, l.foldlM (fun sum cv => do
        let x ← denseGet v cv.1
        pure (sum + x * cv.2)) s
      = .ok (s + (l.map (fun cv => v.getD cv.1 0 * cv.2)).sum) := by
  induction l with
  | nil =>
    intro s
    show Except.ok s = _
    simp
  | cons cv tl ih =>
    intro s
    rw [List.foldlM_cons, denseGet_ok (hb cv (List.mem_cons_self cv tl))]
    show List.foldlM _ (s + v.getD cv.1 0 * cv.2) tl = _
    rw [ih (fun c hc => hb c (List.mem_cons_of_mem cv hc)) (s + v.getD cv.1 0 * cv.2)]
    simp only [List.map_cons, List.sum_cons]
    exact congrArg Except.ok (by ring)

theorem mvp_prefix (m : MatIface) (v : DenseVec)
    (hcols : ∀ i, i < m.nRows → ∀ cv ∈ m.iterRow i, cv.1 < v.length) :
    ∀ n, n ≤ m.nRows → (List.range n).foldlM
      (fun (ret : DenseVec) (i : Nat) => do
        let sum ← (m.iterRow i).foldlM
          (fun (sum : ℚ) (cv : Nat × ℚ) => do
            let x ← denseGet v cv.1
            pure (sum + x * cv.2))
          0
        pure (denseSet ret i sum))
      [] = .ok ((List.range n).map
        (fun i => ((m.iterRow i).map (fun cv => v.getD cv.1 0 * cv.2)).sum)) := by
  intro n
  induction n with
  | zero =>
    intro _
    rfl
  | succ k ih =>
    intro hk
    rw [List.range_succ, List.foldlM_append, ih (by omega), except_bind_ok,
      List.foldlM_cons, mvp_row_sum (hcols k (by omega)) 0]
    show (pure (denseSet ((List.range k).map
        (fun i => ((m.iterRow i).map (fun cv => v.getD cv.1 0 * cv.2)).sum)) k
        (0 + ((m.iterRow k).map (fun cv => v.getD cv.1 0 * cv.2)).sum))
        : Except Err DenseVec)
      = Except.ok ((List.range k ++ [k]).map
        (fun i => ((m.iterRow i).map (fun cv => v.getD cv.1 0 * cv.2)).sum))
    rw [denseSet_at_length (by simp)]
    rw [List.map_append, List.map_cons, List.map_nil, zero_add]
    rfl

theorem mvp_ok (m : MatIface) (v : DenseVec)
    (hcols : ∀ i, i < m.nRows → ∀ cv ∈ m.iterRow i, cv.1 < v.length) :
    SparseMatrix.mvp m v = .ok (cgSpecMvp m v) := by
  unfold SparseMatrix.mvp cgSpecMvp
  exact mvp_prefix m v hcols m.nRows (le_refl _)

theorem denseAdd_eq_len {a b : DenseVec} (h : a.length = b.length) :
    denseAdd a b = .ok (List.zipWith (fun x y => x + y) a b) := by
  unfold denseAdd
  rw [if_neg (by omega), ← h, List.drop_length, List.append_nil]

theorem denseSub_eq_len {a b : DenseVec} (h : a.length = b.length) :
    denseSub a b = .ok (List.zipWith (fun x y => x - y) a b) := by
  unfold denseSub
  rw [if_neg (by omega), ← h, List.drop_length, List.append_nil]

theorem cgSpecMvp_length (m : MatIface) (v : DenseVec) :
    (cgSpecMvp m v).length = m.nRows := by
  simp [cgSpecMvp]

theorem cgLoop_ok (m : MatIface) (tol : ℚ)
    (hcols : ∀ i, i < m.nRows → ∀ cv ∈ m.iterRow i, cv.1 < m.nRows) :
    ∀ (k : Nat) (x r p : DenseVec) (rr : ℚ), x.length = m.nRows →
      r.length = m.nRows → p.length = m.nRows →
      cgLoop m tol k x r p rr = .ok (cgSpecLoop m tol k x r p rr) := by
  intro k
  induction k with
  | zero =>
    intro x r p rr _ _ _
    rfl
  | succ n ih =>
    intro x r p rr hx hr hp
    have hcolsp : ∀ i, i < m.nRows → ∀ cv ∈ m.iterRow i, cv.1 < p.length := by
      rw [hp]
      exact hcols
    unfold cgLoop cgSpecLoop
    rw [mvp_ok m p hcolsp, except_bind_ok]
    dsimp only
    have hlscale : ∀ (v : DenseVec) (c : ℚ), (denseScale v c).length = v.length := by
      intro v c
      simp [denseScale]
    rw [denseAdd_eq_len (by rw [hx, hlscale, hp]), except_bind_ok]
    rw [denseSub_eq_len (by rw [hr, hlscale, cgSpecMvp_length]), except_bind_ok]
    set ap := cgSpecMvp m p with hap
    set alpha := rr / innerProd p ap with halpha
    set x' := List.zipWith (fun a b => a + b) x (denseScale p alpha) with hx'
    set r' := List.zipWith (fun a b => a - b) r (denseScale ap alpha) with hr'
    set rr' := normSquared r' with hrr'
    by_cases hconv : rr' < tol * tol
    · rw [if_pos hconv, if_pos hconv]
    · rw [if_neg hconv, if_neg hconv]
      have hx'len : x'.length = m.nRows := by
        rw [hx', List.length_zipWith, hlscale, hx, hp, min_self]
      have hr'len : r'.length = m.nRows := by
        rw [hr', List.length_zipWith, hlscale, hr, cgSpecMvp_length, min_self]
      rw [denseAdd_eq_len (by rw [hlscale, hp, hr'len]), except_bind_ok]
      rw [List.zipWith_comm_of_comm _ (fun a b => add_comm a b)
        (denseScale p (rr' / rr)) r']
      exact ih x' r' (List.zipWith (fun a b => a + b) r' (denseScale p (rr' / rr))) rr'
        hx'len hr'len
        (by rw [List.length_zipWith, hlscale, hp, hr'len, min_self])

/-- C3: on a square matrix whose rows only address in-range columns, with
`b` and `x` of matching dimension, `ConjugateGradient::solve` computes exactly
the claimed recurrence: `r = b - A·x`, `p = r`, then per iteration
`alpha = (r·r)/(p·(A·p))`, `x += alpha·p`, `r -= alpha·(A·p)`, new `r·r`,
success as soon as the residual norm is below the tolerance, else
`beta = new(r·r)/old(r·r)`, `p = r + beta·p`, for at most `iterMax`
iterations (`cgSpecSolve` is that recurrence written as a total function). -/
theorem c3_conjugate_gradient_recurrence (m : MatIface) (tol : ℚ)
    (iterMax : Nat) (b x : DenseVec)
    (hsq : m.nRows = m.nCols) (hb : b.length = m.nRows) (hx : x.length = m.nRows)
    (hcols : ∀ i, i < m.nRows → ∀ cv ∈ m.iterRow i, cv.1 < m.nCols) :
    ConjugateGradient.solve m tol iterMax b x
      = .ok (cgSpecSolve m tol iterMax b x) := by
  have hcols2 : ∀ i, i < m.nRows → ∀ cv ∈ m.iterRow i, cv.1 < m.nRows := by
    intro i hi cv hcv
    rw [hsq]
    exact hcols i hi cv hcv
  unfold ConjugateGradient.solve cgSpecSolve
  rw [if_neg (by omega), if_neg (by push_neg; exact ⟨hb.symm, hx.symm⟩)]
  rw [mvp_ok m x (by rw [hx]; exact hcols2), except_bind_ok]
  rw [denseSub_eq_len (by rw [hb, cgSpecMvp_length]), except_bind_ok]
  dsimp only
  exact cgLoop_ok m tol hcols2 iterMax x _ _ _ hx
    (by rw [List.length_zipWith, hb, cgSpecMvp_length, min_self])
    (by rw [List.length_zipWith, hb, cgSpecMvp_length, min_self])

/-- C3 witness: the recurrence theorem applied to the concrete symmetric
2-by-2 system `[[4, 1], [1, 3]] · x = [1, 2]` from `x = 0`. -/
theorem c3_conjugate_gradient_recurrence_witness :
    ConjugateGradient.solve
        ⟨2, 2, fun i => [[(0, 4), (1, 1)], [(0, 1), (1, 3)]].getD i []⟩
        (1 / 1000) 10 [1, 2] [0, 0]
      = .ok (cgSpecSolve
        ⟨2, 2, fun i => [[(0, 4), (1, 1)], [(0, 1), (1, 3)]].getD i []⟩
        (1 / 1000) 10 [1, 2] [0, 0]) :=
  c3_conjugate_gradient_recurrence
    ⟨2, 2, fun i => [[(0, 4), (1, 1)], [(0, 1), (1, 3)]].getD i []⟩
    (1 / 1000) 10 [1, 2] [0, 0] rfl rfl rfl (by decide)

/-- C1: the set-then-get contract `get(i,j) = v` after `set(i,j,v)` FAILS on
the compressed-row engine for a fresh matrix: `push` on an empty offset table
(sparsemat_crs.rs lines 85-91) never updates `n_rows`, so the entry is written
into the arrays but `find_index` (guarded by `i < n_rows`) can never see it —
`set(0,0,5)` on `new()` is followed by `get(0,0) = 0`, with `n_rows` still 0. -/
theorem c1_crs_fresh_set_get_divergence :
    (SparseMatCRS.new.set 0 0 5).get 0 0 = 0
    ∧ (5 : ℚ) ≠ 0
    ∧ (SparseMatCRS.new.set 0 0 5).n_rows = 0 := by
  refine ⟨by decide, by norm_num, by decide⟩

/-- C2: converting an incremental index-list matrix built by any sequence of
public operations to compressed-row form preserves `get(i,j)` at every
position and the `n_rows`/`n_cols`/`n_non_zero_entries` counts. -/
theorem c2_index_to_crs_roundtrip (ops : List MatOp) (i j : Nat) :
    (SparseMatCRS.from_sparsemat_index (applyOpsIL ops)).get i j
      = (applyOpsIL ops).get i j
    ∧ (SparseMatCRS.from_sparsemat_index (applyOpsIL ops)).n_rows
      = (applyOpsIL ops).n_rows
    ∧ (SparseMatCRS.from_sparsemat_index (applyOpsIL ops)).n_cols
      = (applyOpsIL ops).n_cols
    ∧ (SparseMatCRS.from_sparsemat_index (applyOpsIL ops)).n_non_zero_entries
      = (applyOpsIL ops).n_non_zero_entries :=
  ⟨conv_get (ilinv_applyOps ops) i j,
   (conv_counts (ilinv_applyOps ops)).1,
   (conv_counts (ilinv_applyOps ops)).2.1,
   (conv_counts (ilinv_applyOps ops)).2.2⟩

/-- C5: what holds is the amended invariant — for the incremental and
row-of-arrays engines, after any sequence of public cell operations,
`n_non_zero_entries()` equals the number of STORED entries (one per distinct
`(row, col)` key, including entries whose stored value is zero), and row
iteration exposes each key at most once.  (The spec's "non-default values"
qualification is refuted by `c5_counterexample`, as is key-uniqueness of
iteration for the compressed-row engine.) -/
theorem c5_entry_count_distinct_keys (ops : List MatOp) :
    ((applyOpsIL ops).n_non_zero_entries = (applyOpsIL ops).rowEntries.length
      ∧ ((applyOpsIL ops).rowEntries.map (fun e => (e.1, e.2.1))).Nodup)
    ∧ ((applyOpsRV ops).n_non_zero_entries = (applyOpsRV ops).rowEntries.length
      ∧ ((applyOpsRV ops).rowEntries.map (fun e => (e.1, e.2.1))).Nodup) :=
  ⟨il_entries_facts (ilinv_applyOps ops), rv_entries_facts (rvinv_applyOps ops)⟩

/-- C5 counterexample: `set(0,0,0)` stores an explicit zero that
`n_non_zero_entries()` counts, so the count is not "distinct keys with
non-default values"; and on the compressed-row engine two `set(0,0,·)` calls
on a fresh matrix (each missing the previous entry through the `n_rows` bug)
leave two entries with the same key visible to `iter_row`. -/
theorem c5_counterexample :
    (applyOpsIL [.set 0 0 0]).n_non_zero_entries = 1
    ∧ (applyOpsIL [.set 0 0 0]).get 0 0 = 0
    ∧ (applyOpsCRS [.set 0 0 1, .set 0 0 2]).iter_row 0 = [(0, 2), (0, 1)] := by
  refine ⟨by decide, by decide, by decide⟩

/-- C6: where a missing cell lands in its row differs by engine — the
incremental and row-of-arrays engines append the new `(j, 0)` entry at the END
of row `i`, but the compressed-row engine inserts at flat position
`offset_rows[i]`, the BEGINNING of the row, so its rows read in reverse
creation order rather than the claimed insertion order. -/
theorem c6_missing_cell_placement :
    (∀ (m : SparseMatIndexList), ILInv m → ∀ i j, m.find_index i j = none →
      (m.getMutIdx i j).1.iter_row i = m.iter_row i ++ [(j, 0)])
    ∧ (∀ (m : SparseMatRowVec), RVInv m → ∀ i j, m.find_index i j = none →
      (m.getMutIdx i j).1.iter_row i
        = .ok ((m.columns.getD i []).zip (m.values.getD i []) ++ [(j, 0)]))
    ∧ (∀ (m : SparseMatCRS), WFCRS m → ∀ i j, m.find_index i j = none →
      (m.getMutIdx i j).1.iter_row i = (j, 0) :: m.iter_row i) := by
  refine ⟨?_, ?_, ?_⟩
  · intro m hinv i j hfind
    unfold SparseMatIndexList.getMutIdx
    rw [hfind]
    show (m.push i j 0).1.iter_row i = _
    have h2 := ((ilinv_push hinv i j 0 hfind).2.1) i
    rw [if_pos rfl] at h2
    exact h2
  · intro m hinv i j hfind
    unfold SparseMatRowVec.getMutIdx
    rw [hfind]
    show (m.push i j 0).1.iter_row i = _
    obtain ⟨_, hc, hv, _, hnr, _, _⟩ := rvinv_push hinv i j 0 hfind
    unfold SparseMatRowVec.iter_row
    rw [if_pos (by rw [hnr]; omega), hc, hv,
      List.zip_append (hinv.len_rows i).symm]
    rfl
  · intro m h i j hfind
    exact crs_getMut_prepend h hfind

/-- C6 counterexample: on a compressed-row matrix holding `(0,5) = 1`, setting
the missing cell `(0,3)` makes `iter_row 0` yield the NEW entry first —
`[(3, 2), (5, 1)]` — not appended at the end as the spec claims. -/
theorem c6_counterexample :
    ((SparseMatCRS.from_sparsemat_index (applyOpsIL [.set 0 5 1])).set 0 3 2).iter_row 0
      = [(3, 2), (5, 1)] := by
  decide

/-- C7: an out-of-range row (`i ≥ n_rows()`) iterates to the empty sequence on
the incremental and compressed-row engines, but the row-of-arrays engine
instead panics with "Invalid row" (sparsemat_rowvec.rs lines 67-73) — the
three engines are NOT identical to the caller on this access. -/
theorem c7_out_of_range_iter_row :
    (∀ (m : SparseMatIndexList) (i : Nat), m.n_rows ≤ i → m.iter_row i = [])
    ∧ (∀ (m : SparseMatCRS) (i : Nat), m.n_rows ≤ i → m.iter_row i = [])
    ∧ (∀ (m : SparseMatRowVec) (i : Nat), m.n_rows ≤ i →
        m.iter_row i = .error .invalidRow) := by
  refine ⟨?_, ?_, ?_⟩
  · intro m i hi
    unfold SparseMatIndexList.iter_row
    rw [iterRow_out_of_range hi, List.map_nil]
  · intro m i hi
    exact crs_iter_row_neg hi
  · intro m i hi
    unfold SparseMatRowVec.iter_row
    rw [if_neg (Nat.not_lt.mpr hi)]

/-- C7 counterexample: on one-row matrices, row 5 iterates empty for the
incremental and compressed-row engines but panics ("Invalid row") for the
row-of-arrays engine. -/
theorem c7_counterexample :
    (applyOpsIL [.set 0 0 1]).iter_row 5 = []
    ∧ (SparseMatCRS.from_sparsemat_index (applyOpsIL [.set 0 0 1])).iter_row 5 = []
    ∧ (applyOpsRV [.set 0 0 1]).iter_row 5 = .error .invalidRow := by
  refine ⟨by decide, by decide, by rfl⟩

/-- C8: `assemble_column_info()` is a no-op — its loop body is only a `//TODO`
comment — so on a matrix without column info, `iter_col` still fails with the
"not available" condition even AFTER calling it, contradicting the claim that
assembly makes `iter_col` usable. -/
theorem c8_assemble_column_info_is_noop :
    (∀ m : SparseMatCRS, m.assemble_column_info = m)
    ∧ (SparseMatCRS.from_sparsemat_index
        (applyOpsIL [.set 0 0 1])).assemble_column_info.iter_col 0
      = .error .notAvailable := by
  exact ⟨fun m => rfl, by rfl⟩

/-- C9: the double transpose loses entries on the compressed-row engine: the
trait-default `transpose` re-inserts entries with `set` into a fresh matrix,
and on a fresh compressed-row matrix `set` falls into the `push` branch that
never updates `n_rows` (the C1 bug), so the transposed entries are invisible;
transposing again therefore produces an entry-free matrix, not `M`. -/
theorem c9_double_transpose_loses_entries :
    (SparseMatCRS.from_sparsemat_index (applyOpsIL [.set 0 1 5])).get 0 1 = 5
    ∧ ((SparseMatCRS.from_sparsemat_index
        (applyOpsIL [.set 0 1 5])).transpose.transpose).get 0 1 = 0
    ∧ ((SparseMatCRS.from_sparsemat_index
        (applyOpsIL [.set 0 1 5])).transpose.transpose).n_non_zero_entries
      = 0 := by
  refine ⟨by decide, by decide, by decide⟩

/-- C10: on any matrix with no rows — in particular one fresh from `new()` or
`with_capacity` — the whole-matrix iterator of each engine fails while being
constructed or first advanced (out-of-bounds `row_start[0]` / `offset_rows`
read, or the `n_rows() - 1` underflow) instead of yielding an empty
sequence. -/
theorem c10_iter_fails_on_empty :
    (∀ m : SparseMatIndexList, m.n_rows = 0 → ∃ e, m.iterAll = .error e)
    ∧ (∀ m : SparseMatCRS, m.n_rows = 0 → ∃ e, m.iterAll = .error e)
    ∧ (∀ m : SparseMatRowVec, m.n_rows = 0 → ∃ e, m.iterAll = .error e) := by
  refine ⟨?_, ?_, ?_⟩
  · intro m h
    have hrs : m.indexlist.row_start = [] := List.eq_nil_of_length_eq_zero h
    refine ⟨.indexOutOfBounds, ?_⟩
    unfold SparseMatIndexList.iterAll RowIndexList.iterAll
    rw [hrs]
    rfl
  · intro m h
    by_cases hoff : m.offset_rows.length ≤ 1
    · refine ⟨.indexOutOfBounds, ?_⟩
      unfold SparseMatCRS.iterAll
      rw [if_pos hoff]
    · refine ⟨.arithmeticUnderflow, ?_⟩
      unfold SparseMatCRS.iterAll
      rw [if_neg hoff, if_pos h]
  · intro m h
    refine ⟨.arithmeticUnderflow, ?_⟩
    unfold SparseMatRowVec.iterAll
    rw [if_pos h]
